import Mathlib

set_option maxHeartbeats 1000000

/-!
Verification of the swatchbook color engine: hex/RGB/perceptual codec,
gamut estimator, palette generator and gradient generators, embedded from
the OKLCH implementation of the source.  Numbers are modelled as exact
rationals; the culori library calls (parse / oklch / formatHex), which are
not part of the repository, are modelled from the specification.
-/

/-- The OKLCH record of the source (interface OKLCH): lightness 0-1, chroma
0-0.4, hue in degrees, stored as plain numbers after the source coalesces
undefined components to 0. -/
structure OKLCH where
  l : ℚ
  c : ℚ
  h : ℚ
deriving DecidableEq, Repr

/-- Value of a hexadecimal digit character, case-insensitive, with parseInt
base-16 semantics; none for a non-hex character. -/
def hexDigitVal (ch : Char) : Option ℕ :=
  let n := ch.toNat
  if 48 ≤ n ∧ n ≤ 57 then some (n - 48)
  else if 97 ≤ n ∧ n ≤ 102 then some (n - 87)
  else if 65 ≤ n ∧ n ≤ 70 then some (n - 55)
  else none

/-- Parse exactly six hex digit characters into three byte values, as the
three capture groups of the source regex do. -/
def parseSixHex : List Char → Option (ℕ × ℕ × ℕ)
  | [a, b, c, d, e, f] => do
    let va ← hexDigitVal a
    let vb ← hexDigitVal b
    let vc ← hexDigitVal c
    let vd ← hexDigitVal d
    let ve ← hexDigitVal e
    let vf ← hexDigitVal f
    pure (16 * va + vb, 16 * vc + vd, 16 * ve + vf)
  | _ => none

/-- The strict hex color pattern of the source regex: an optional leading
'#', then exactly six case-insensitive hex digits. -/
def parseHexChars (cs : List Char) : Option (ℕ × ℕ × ℕ) :=
  if cs.head? = some '#' then parseSixHex cs.tail else parseSixHex cs

/-- Truncation toward zero, as JavaScript applies inside the % operator. -/
def ratTrunc (x : ℚ) : ℤ := if 0 ≤ x then ⌊x⌋ else -⌊-x⌋

/-- The JavaScript remainder operator on numbers: a % b = a - b * trunc(a / b). -/
def jsMod (a b : ℚ) : ℚ := a - b * (ratTrunc (a / b) : ℚ)

/-- JavaScript division, with a zero denominator (which yields NaN or
Infinity and poisons the result) modelled as none. -/
def jsDiv (a b : ℚ) : Option ℚ := if b = 0 then none else some (a / b)

/-- Math.round: floor of x + 1/2, which matches JavaScript on halves. -/
def jsRound (x : ℚ) : ℤ := ⌊x + 1 / 2⌋

/-- Modelled from the spec: culori's RGB→OKLCH conversion is not part of this
repository.  The spec describes the perceptual model as an LCH-like cylinder
with lightness in [0,1], chroma in [0, 0.4], hue in degrees [0,360) and the
hue undefined for grays; this realizes it as the exact rational hexagonal
cylinder over unit RGB channels. -/
def rgbUnitToLch (r g b : ℚ) : ℚ × ℚ × Option ℚ :=
  let mx := max r (max g b)
  let mn := min r (min g b)
  let d := mx - mn
  if d = 0 then ((mx + mn) / 2, 0, none)
  else
    let h :=
      if mx = r then 60 * ((g - b) / d + (if g < b then 6 else 0))
      else if mx = g then 60 * ((b - r) / d + 2)
      else 60 * ((r - g) / d + 4)
    ((mx + mn) / 2, 2 / 5 * d, some h)

/-- Modelled from the spec: the inverse conversion used by culori's
formatHex, sending lightness, chroma and hue back to unit RGB channels.
The hue is an angle in degrees and is reduced modulo 360 first, as culori's
trigonometric conversion is periodic in the hue.  Exact rational inverse of
rgbUnitToLch on its range. -/
def lchToRgbUnit (L C H : ℚ) : ℚ × ℚ × ℚ :=
  let d := 5 / 2 * C
  let mn := L - d / 2
  let k := H / 60 - 6 * (⌊H / 360⌋ : ℚ)
  if k < 1 then (mn + d, mn + d * k, mn)
  else if k < 2 then (mn + d * (2 - k), mn + d, mn)
  else if k < 3 then (mn, mn + d, mn + d * (k - 2))
  else if k < 4 then (mn, mn + d * (4 - k), mn + d)
  else if k < 5 then (mn + d * (k - 4), mn, mn + d)
  else (mn + d, mn, mn + d * (6 - k))

/-- The culori oklch() result for a parsed byte triple: lightness and chroma
always defined, hue undefined exactly for grays. -/
def culoriOklch (r g b : ℕ) : ℚ × ℚ × Option ℚ :=
  rgbUnitToLch ((r : ℚ) / 255) ((g : ℚ) / 255) ((b : ℚ) / 255)

/-- hexToOklch of the source: parse the hex string (throwing, i.e. none, on a
string that does not match the strict pattern), convert to the perceptual
model, and coalesce each possibly-undefined component to 0 (the source writes
l ?? 0, c ?? 0, h ?? 0; only the hue can actually be undefined). -/
def hexToOklch (hex : String) : Option OKLCH :=
  match parseHexChars hex.data with
  | none => none
  | some (r, g, b) =>
    let o := culoriOklch r g b
    some { l := o.1, c := o.2.1, h := (o.2.2).getD 0 }

/-- Lowercase hex digit character for a value below 16. -/
def hexChar (d : ℕ) : Char := if d < 10 then Char.ofNat (48 + d) else Char.ofNat (87 + d)

/-- Channel byte of a unit RGB channel: scaled to 255, rounded to the nearest
integer and clamped into [0,255], per the spec of perceptualToHex. -/
def byteOfQ (x : ℚ) : ℕ := (min 255 (max 0 (jsRound (255 * x)))).toNat

/-- Two lowercase, zero-padded hex digit characters of a byte. -/
def hexByte (n : ℕ) : List Char := [hexChar (n / 16), hexChar (n % 16)]

/-- oklchToHex of the source; culori's formatHex is modelled from the spec:
convert back to device RGB, compress each channel into range, round to 8 bits
and print as a lowercase '#'-prefixed 6-digit hex string. -/
def oklchToHex (c : OKLCH) : String :=
  let u := lchToRgbUnit c.l c.c c.h
  String.mk ('#' :: (hexByte (byteOfQ u.1) ++ hexByte (byteOfQ u.2.1) ++ hexByte (byteOfQ u.2.2)))

/-- getMaxChroma of the source: 0 for an undefined hue, otherwise a
lightness-tiered bound of 0.1, 0.25 or 0.3. -/
def getMaxChroma (l : ℚ) (h : Option ℚ) : ℚ :=
  if h = none then 0
  else if l < 1 / 5 ∨ 19 / 20 < l then 1 / 10
  else if l < 2 / 5 ∨ 4 / 5 < l then 1 / 4
  else 3 / 10

/-- The hue-offset table of generatePalette's switch statement.  The scheme
tag is a runtime string; any unrecognized tag takes the default branch. -/
def schemeOffsets (scheme : String) (count : ℤ) : List ℤ :=
  if scheme = "dichromatic" then if 1 < count then [180] else []
  else if scheme = "complementary" then [180]
  else if scheme = "split-complementary" then [150, 210]
  else if scheme = "triadic" then
    if 3 ≤ count then [120, 240] else if count = 2 then [120] else []
  else if scheme = "tetradic" then
    if 4 ≤ count then [90, 180, 270]
    else if count = 3 then [90, 180]
    else if count = 2 then [90] else []
  else if scheme = "analogous" then
    if 1 < count then
      (List.range (count - 1).toNat).map
        (fun i => -(((count - 1).toNat / 2 : ℕ) : ℤ) * 30 + (i : ℤ) * 30)
    else []
  else if scheme = "monochromatic" then []
  else if 3 ≤ count then [120, 240] else if count = 2 then [120] else []

/-- One hue-offset color of generatePalette's non-monochromatic loop: keep the
seed lightness, rotate the hue, clamp chroma by the gamut bound at the new hue. -/
def offsetColor (base : OKLCH) (off : ℤ) : OKLCH :=
  let newH := jsMod (base.h + (off : ℚ) + 360) 360
  { l := base.l, c := min (getMaxChroma base.l (some newH)) base.c, h := newH }

/-- The i-th monochromatic variation of generatePalette (1 ≤ i ≤ count-1):
lightness interpolated across a range around the seed, chroma on a
rise-then-fall curve, hue held constant. -/
def monoColorAt (base : OKLCH) (count : ℤ) (i : ℕ) : OKLCH :=
  let step : ℚ := 1 / ((count : ℚ) - 1)
  let progress : ℚ := (i : ℚ) * step
  let lightnessRange := min (7 / 10) (max (3 / 10) (1 - base.l * 2))
  let minL := max (3 / 20) (base.l - lightnessRange / 2)
  let maxL := min (19 / 20) (base.l + lightnessRange / 2)
  let minC := max 0 (base.c * (3 / 10))
  let maxC := min (getMaxChroma base.l (some base.h)) (base.c * (3 / 2))
  let chromaRange := maxC - minC
  let newL := minL + progress * (maxL - minL)
  let newC := minC + (1 - |progress - 1 / 2| * 2) * chromaRange
  { l := newL, c := max 0 (min (getMaxChroma newL (some base.h)) newC), h := base.h }

/-- One step of generatePalette's fill loop: rotate the hue of the last
generated color by 30 degrees, clamp lightness into [0.2,0.9] and chroma by
the gamut bound.  The source's firstColor fallback branches are dead code
because decoded hues are always defined numbers. -/
def fillColorOf (last : OKLCH) : OKLCH :=
  let newH := jsMod (last.h + 30) 360
  { l := max (1 / 5) (min (9 / 10) last.l)
    c := min (getMaxChroma last.l (some newH)) last.c
    h := newH }

/-- The while-loop of generatePalette that appends hue-advanced variations of
the last color until the palette is long enough, with the number of missing
entries as fuel.  Each iteration re-decodes the last generated hex string and
the seed (the source evaluates hexToOklch(palette[0]) every iteration). -/
def paletteFill (startColor : String) : ℕ → String → Option (List String)
  | 0, _ => some []
  | n + 1, lastHex =>
    match hexToOklch lastHex, hexToOklch startColor with
    | some lastC, some _ =>
      let hx := oklchToHex (fillColorOf lastC)
      match paletteFill startColor n hx with
      | some rest => some (hx :: rest)
      | none => none
    | _, _ => none

/-- Array.prototype.slice(0, end) on the palette: a negative end counts from
the end of the array. -/
def jsSlice (l : List String) (endIdx : ℤ) : List String :=
  if endIdx < 0 then l.take ((l.length : ℤ) + endIdx).toNat else l.take endIdx.toNat

/-- generatePalette of the source (OKLCH implementation): seed first, then
scheme-driven hue offsets or monochromatic variations, then the fill loop,
then slice to the requested count. -/
def generatePalette (startColor : String) (scheme : String) (count : ℤ) : Option (List String) :=
  match hexToOklch startColor with
  | none => none
  | some c0 =>
    if scheme = "monochromatic" then
      let body :=
        if 1 < count then
          (List.range (count - 1).toNat).map (fun j => oklchToHex (monoColorAt c0 count (j + 1)))
        else []
      some (jsSlice (startColor :: body) count)
    else
      let offs := schemeOffsets scheme count
      let gen := (offs.take (count - 1).toNat).map (fun off => oklchToHex (offsetColor c0 off))
      let palette := startColor :: gen
      match paletteFill startColor (count - (palette.length : ℤ)).toNat (palette.getLastD "") with
      | none => none
      | some extra => some (jsSlice (palette ++ extra) count)

/-- The color of generateValueGradient at one progress fraction: lightness in
a clamped 0.6-wide band around the base, chroma scaled down away from the
midpoint and clamped by the gamut bound at the new lightness. -/
def valueColorAt (base : OKLCH) (progress : ℚ) : OKLCH :=
  let minL := max (1 / 10) (base.l - 3 / 10)
  let maxL := min (49 / 50) (base.l + 3 / 10)
  let newL := minL + progress * (maxL - minL)
  let chromaMultiplier := 1 - |progress - 1 / 2| * (2 / 5)
  let maxC := getMaxChroma newL (some base.h)
  { l := newL, c := min maxC (base.c * chromaMultiplier), h := base.h }

/-- generateValueGradient of the source: steps colors at progress i/(steps-1);
the division is a JavaScript division, so steps = 1 divides by zero. -/
def generateValueGradient (color : String) (steps : ℤ) : Option (List String) :=
  match hexToOklch color with
  | none => none
  | some c0 =>
    (List.range steps.toNat).mapM fun (i : ℕ) => do
      let progress ← jsDiv (i : ℚ) ((steps : ℚ) - 1)
      pure (oklchToHex (valueColorAt c0 progress))

/-- The color of generateSaturationGradient at one progress fraction: chroma
runs from 10% of the base chroma toward the gamut bound over a range of at
least 0.15, lightness and hue constant. -/
def satColorAt (base : OKLCH) (progress : ℚ) : OKLCH :=
  let maxC := getMaxChroma base.l (some base.h)
  let minC := max 0 (base.c * (1 / 10))
  let chromaRange := max (3 / 20) (maxC - minC)
  { l := base.l, c := min maxC (minC + progress * chromaRange), h := base.h }

/-- generateSaturationGradient of the source. -/
def generateSaturationGradient (color : String) (steps : ℤ) : Option (List String) :=
  match hexToOklch color with
  | none => none
  | some c0 =>
    (List.range steps.toNat).mapM fun (i : ℕ) => do
      let progress ← jsDiv (i : ℚ) ((steps : ℚ) - 1)
      pure (oklchToHex (satColorAt c0 progress))

/-- The color of generateCombinedGradient at one progress fraction: lightness
in a clamped 0.5-wide band, chroma interpolated over a range computed from
the gamut bound at the base lightness and clamped at the new lightness. -/
def combinedColorAt (base : OKLCH) (progress : ℚ) : OKLCH :=
  let minL := max (3 / 20) (base.l - 1 / 4)
  let maxL := min (19 / 20) (base.l + 1 / 4)
  let maxC := getMaxChroma base.l (some base.h)
  let minC := max 0 (base.c * (1 / 5))
  let chromaRange := max (1 / 10) (maxC - minC)
  let newL := minL + progress * (maxL - minL)
  let chromaProgress := progress
  let currentMaxC := getMaxChroma newL (some base.h)
  { l := newL, c := min currentMaxC (minC + chromaProgress * chromaRange), h := base.h }

/-- generateCombinedGradient of the source. -/
def generateCombinedGradient (color : String) (steps : ℤ) : Option (List String) :=
  match hexToOklch color with
  | none => none
  | some c0 =>
    (List.range steps.toNat).mapM fun (i : ℕ) => do
      let progress ← jsDiv (i : ℚ) ((steps : ℚ) - 1)
      pure (oklchToHex (combinedColorAt c0 progress))

/-- The gradientType union of the source: "value" | "saturation" | "both". -/
inductive GradientType where
  | value
  | saturation
  | both
deriving DecidableEq, Repr

/-- The color of getSmoothGradientColor at a continuous position.  The value
and saturation branches repeat the stepped formulas; the both branch computes
its chroma range from the gamut bound at the sampled lightness, where the
stepped combined gradient uses the bound at the base lightness. -/
def smoothColorAt (base : OKLCH) (position : ℚ) : GradientType → OKLCH
  | GradientType.value =>
    let minL := max (1 / 10) (base.l - 3 / 10)
    let maxL := min (49 / 50) (base.l + 3 / 10)
    let newL := minL + position * (maxL - minL)
    let chromaMultiplier := 1 - |position - 1 / 2| * (2 / 5)
    let maxC := getMaxChroma newL (some base.h)
    { l := newL, c := min maxC (base.c * chromaMultiplier), h := base.h }
  | GradientType.saturation =>
    let maxC := getMaxChroma base.l (some base.h)
    let minC := max 0 (base.c * (1 / 10))
    let chromaRange := max (3 / 20) (maxC - minC)
    { l := base.l, c := min maxC (minC + position * chromaRange), h := base.h }
  | GradientType.both =>
    let minL := max (3 / 20) (base.l - 1 / 4)
    let maxL := min (19 / 20) (base.l + 1 / 4)
    let newL := minL + position * (maxL - minL)
    let maxC := getMaxChroma newL (some base.h)
    let minC := max 0 (base.c * (1 / 5))
    let chromaRange := max (1 / 10) (maxC - minC)
    let currentMaxC := getMaxChroma newL (some base.h)
    { l := newL, c := min currentMaxC (minC + position * chromaRange), h := base.h }

/-- getSmoothGradientColor of the source. -/
def getSmoothGradientColor (color : String) (position : ℚ) (t : GradientType) : Option String :=
  (hexToOklch color).map fun c0 => oklchToHex (smoothColorAt c0 position t)

/-- A hex digit character, stated declaratively: a decimal digit or a letter
a-f in either case. -/
def IsHexDigitChar (c : Char) : Prop :=
  (48 ≤ c.toNat ∧ c.toNat ≤ 57) ∨ (97 ≤ c.toNat ∧ c.toNat ≤ 102) ∨ (65 ≤ c.toNat ∧ c.toNat ≤ 70)

instance (c : Char) : Decidable (IsHexDigitChar c) := by
  unfold IsHexDigitChar; infer_instance

/-- The strict 6-digit hex color pattern of the spec, stated declaratively:
six hex digits, or a '#' followed by six hex digits. -/
def HexPattern (cs : List Char) : Prop :=
  (cs.length = 6 ∧ ∀ c ∈ cs, IsHexDigitChar c) ∨
  (∃ t, cs = '#' :: t ∧ t.length = 6 ∧ ∀ c ∈ t, IsHexDigitChar c)

/-- A generated color is inside the estimated gamut: its chroma is at most
the gamut bound at its own lightness and hue. -/
def InGamut (c : OKLCH) : Prop := c.c ≤ getMaxChroma c.l (some c.h)

instance (c : OKLCH) : Decidable (InGamut c) := by
  unfold InGamut; infer_instance

/-- Decoded channel distance of two hex strings is at most a tolerance: both
parse, and the parsed byte channels differ by at most tol pointwise. -/
def ChannelsWithin (s t : String) (tol : ℕ) : Prop :=
  ∃ r g b r2 g2 b2, parseHexChars s.data = some (r, g, b) ∧
    parseHexChars t.data = some (r2, g2, b2) ∧
    Nat.dist r r2 ≤ tol ∧ Nat.dist g g2 ≤ tol ∧ Nat.dist b b2 ≤ tol

/-- A hex digit parses successfully exactly when it is a hex digit character. -/
theorem hexDigitVal_isSome_iff (c : Char) : (hexDigitVal c).isSome ↔ IsHexDigitChar c := by
  simp only [hexDigitVal, IsHexDigitChar]
  split_ifs with h1 h2 h3 <;> simp <;> omega

/-- A parsed hex digit value is below 16. -/
theorem hexDigitVal_lt (c : Char) (v : ℕ) (h : hexDigitVal c = some v) : v < 16 := by
  simp only [hexDigitVal] at h
  split_ifs at h <;> simp only [Option.some.injEq] at h <;> omega

/-- Formatting a value below 16 as a hex character parses back to the value. -/
theorem hexDigitVal_hexChar : ∀ d < 16, hexDigitVal (hexChar d) = some d := by decide

/-- Six characters parse successfully exactly when there are six of them and
all are hex digits. -/
theorem parseSixHex_isSome_iff (cs : List Char) :
    (parseSixHex cs).isSome ↔ cs.length = 6 ∧ ∀ c ∈ cs, IsHexDigitChar c := by
  match cs with
  | [] => simp [parseSixHex]
  | [a] => simp [parseSixHex]
  | [a, b] => simp [parseSixHex]
  | [a, b, c] => simp [parseSixHex]
  | [a, b, c, d] => simp [parseSixHex]
  | [a, b, c, d, e] => simp [parseSixHex]
  | a :: b :: c :: d :: e :: f :: g :: rest => simp [parseSixHex]
  | [a, b, c, d, e, f] =>
    simp only [parseSixHex, List.length_cons, List.length_nil, List.mem_cons,
      List.not_mem_nil, or_false, bind, ← hexDigitVal_isSome_iff]
    cases ha : hexDigitVal a <;> cases hb : hexDigitVal b <;> cases hc : hexDigitVal c <;>
      cases hd : hexDigitVal d <;> cases he : hexDigitVal e <;> cases hf : hexDigitVal f <;>
      simp_all [Option.isSome]

/-- Parsed byte channels are below 256. -/
theorem parseSixHex_lt (cs : List Char) (r g b : ℕ) (h : parseSixHex cs = some (r, g, b)) :
    r < 256 ∧ g < 256 ∧ b < 256 := by
  match cs with
  | [] => simp [parseSixHex] at h
  | [a] => simp [parseSixHex] at h
  | [a, b', c] => simp [parseSixHex] at h
  | [a, b'] => simp [parseSixHex] at h
  | [a, b', c, d] => simp [parseSixHex] at h
  | [a, b', c, d, e] => simp [parseSixHex] at h
  | a :: b' :: c :: d :: e :: f :: g' :: rest => simp [parseSixHex] at h
  | [a, b', c, d, e, f] =>
    simp only [parseSixHex, bind, Option.bind_eq_some, Option.pure_def,
      Option.some.injEq, Prod.mk.injEq] at h
    obtain ⟨va, hva, vb, hvb, vc, hvc, vd, hvd, ve, hve, vf, hvf, h1, h2, h3⟩ := h
    have := hexDigitVal_lt _ _ hva
    have := hexDigitVal_lt _ _ hvb
    have := hexDigitVal_lt _ _ hvc
    have := hexDigitVal_lt _ _ hvd
    have := hexDigitVal_lt _ _ hve
    have := hexDigitVal_lt _ _ hvf
    omega

/-- The parser of the source regex succeeds exactly on the strict hex pattern. -/
theorem parseHexChars_isSome_iff (cs : List Char) :
    (parseHexChars cs).isSome ↔ HexPattern cs := by
  cases cs with
  | nil =>
    simp [parseHexChars, parseSixHex, HexPattern]
  | cons a t =>
    by_cases ha : a = '#'
    · subst ha
      unfold parseHexChars
      rw [if_pos (by simp), List.tail_cons, parseSixHex_isSome_iff]
      constructor
      · rintro ⟨h6, hall⟩
        exact Or.inr ⟨t, rfl, h6, hall⟩
      · rintro (⟨h6, hall⟩ | ⟨t', het, h6, hall⟩)
        · exact absurd (hall '#' (by simp)) (by decide)
        · obtain ⟨rfl⟩ : t = t' := by injection het
          exact ⟨h6, hall⟩
    · unfold parseHexChars
      rw [if_neg (by simp [ha]), parseSixHex_isSome_iff]
      constructor
      · rintro ⟨h6, hall⟩
        exact Or.inl ⟨h6, hall⟩
      · rintro (⟨h6, hall⟩ | ⟨t', het, h6, hall⟩)
        · exact ⟨h6, hall⟩
        · exact absurd (List.head_eq_of_cons_eq het) ha

/-- hexToOklch succeeds exactly when the regex parser succeeds. -/
theorem hexToOklch_isSome_iff (s : String) :
    (hexToOklch s).isSome ↔ (parseHexChars s.data).isSome := by
  unfold hexToOklch
  cases h : parseHexChars s.data with
  | none => simp [h]
  | some v => obtain ⟨r, g, b⟩ := v; simp [h]

/-- A hue angle in [0, 360) is not reduced by the modulo-360 step: its floor
after division by 360 is zero. -/
theorem floor_div_360_eq_zero (H : ℚ) (h0 : 0 ≤ H) (h1 : H < 360) : ⌊H / 360⌋ = 0 := by
  rw [Int.floor_eq_zero_iff, Set.mem_Ico]
  constructor
  · exact div_nonneg h0 (by norm_num)
  · rw [div_lt_one (by norm_num)]
    exact h1

/-- The modelled perceptual conversion is exactly invertible: decoding unit RGB
channels to the LCH cylinder (with the undefined hue of grays coalesced to 0)
and converting back reproduces the channels exactly. -/

theorem lch_roundtrip (r g b : ℚ) :
    lchToRgbUnit (rgbUnitToLch r g b).1 (rgbUnitToLch r g b).2.1
      ((rgbUnitToLch r g b).2.2.getD 0) = (r, g, b) := by
  have h60 : (60 : ℚ) ≠ 0 := by norm_num
  by_cases hd : max r (max g b) - min r (min g b) = 0
  · -- achromatic: all channels equal
    have heq : max r (max g b) = min r (min g b) := by linarith [sub_eq_zero.mp hd]
    have hrg : r = g :=
      le_antisymm (le_trans (le_max_left _ _) (heq.le.trans ((min_le_right _ _).trans (min_le_left _ _))))
        (le_trans ((le_max_left _ _).trans (le_max_right _ _)) (heq.le.trans (min_le_left _ _)))
    have hrb : r = b :=
      le_antisymm (le_trans (le_max_left _ _) (heq.le.trans ((min_le_right _ _).trans (min_le_right _ _))))
        (le_trans ((le_max_right _ _).trans (le_max_right _ _)) (heq.le.trans (min_le_left _ _)))
    subst hrg hrb
    simp only [rgbUnitToLch, lchToRgbUnit, max_self, min_self, sub_self, if_pos rfl,
      Option.getD_none, zero_div, Int.floor_zero, Int.cast_zero, mul_zero, sub_zero]
    norm_num
  · -- chromatic
    simp only [rgbUnitToLch, lchToRgbUnit]
    rw [if_neg hd]
    simp only [Option.getD_some]
    rcases le_or_lt (max g b) r with hA | hB
    · -- mx = r
      have h2 : g ≤ r := (le_max_left g b).trans hA
      have h3 : b ≤ r := (le_max_right g b).trans hA
      have hmx : max r (max g b) = r := max_eq_left hA
      rcases le_or_lt b g with h1 | h1
      · -- sector 0/1: b ≤ g ≤ r
        have hmn : min r (min g b) = b := by rw [min_eq_right h1, min_eq_right h3]
        rw [hmx, hmn] at hd ⊢
        have hdpos : 0 < r - b := lt_of_le_of_ne (by linarith) (fun hc => hd hc.symm)
        rw [if_pos rfl, if_neg (not_lt.mpr h1)]
        rw [mul_div_cancel_left₀ _ h60]
        have hfl : ⌊60 * ((g - b) / (r - b) + 0) / 360⌋ = 0 := by
          apply floor_div_360_eq_zero
          · have : (0 : ℚ) ≤ (g - b) / (r - b) := div_nonneg (by linarith) hdpos.le
            linarith
          · have : (g - b) / (r - b) ≤ 1 := by
              rw [div_le_one hdpos]; linarith
            linarith
        rw [hfl]
        simp only [Int.cast_zero, mul_zero, sub_zero]
        rcases lt_or_eq_of_le h2 with h4 | h4
        · -- g < r: k < 1
          rw [if_pos (by rw [add_zero]; exact (div_lt_one hdpos).mpr (by linarith))]
          simp only [Prod.mk.injEq]
          refine ⟨by ring, ?_, by ring⟩
          field_simp
          ring
        · -- g = r: k = 1
          subst h4
          rw [if_neg (by rw [add_zero, div_self (ne_of_gt hdpos)]; norm_num),
            if_pos (by rw [add_zero, div_self (ne_of_gt hdpos)]; norm_num)]
          simp only [Prod.mk.injEq]
          rw [add_zero, div_self (ne_of_gt hdpos)]
          refine ⟨by ring, by ring, by ring⟩
      · -- sector 5: g < b ≤ r
        have hmn : min r (min g b) = g := by rw [min_eq_left h1.le, min_eq_right h2]
        rw [hmx, hmn] at hd ⊢
        have hdpos : 0 < r - g := lt_of_le_of_ne (by linarith) (fun hc => hd hc.symm)
        rw [if_pos rfl, if_pos h1]
        rw [mul_div_cancel_left₀ _ h60]
        have hk5 : (5 : ℚ) ≤ (g - b) / (r - g) + 6 := by
          have : (-1 : ℚ) ≤ (g - b) / (r - g) := by
            rw [le_div_iff₀ hdpos]
            linarith
          linarith
        have hfl : ⌊60 * ((g - b) / (r - g) + 6) / 360⌋ = 0 := by
          apply floor_div_360_eq_zero
          · linarith
          · have : (g - b) / (r - g) < 0 := div_neg_of_neg_of_pos (by linarith) hdpos
            linarith
        rw [hfl]
        simp only [Int.cast_zero, mul_zero, sub_zero]
        rw [if_neg (by linarith), if_neg (by linarith), if_neg (by linarith),
          if_neg (by linarith), if_neg (by linarith)]
        simp only [Prod.mk.injEq]
        refine ⟨by ring, by ring, ?_⟩
        field_simp
        ring
    · -- r < max g b, so mx = max g b
      have hmx0 : max r (max g b) = max g b := max_eq_right hB.le
      have hmr : max r (max g b) ≠ r := by
        rw [hmx0]; exact ne_of_gt hB
      rcases le_or_lt b g with h1 | h1
      · -- mx = g, r < g
        have hmx : max r (max g b) = g := by rw [hmx0, max_eq_left h1]
        have hrg : r < g := by rw [max_eq_left h1] at hB; exact hB
        rw [hmx] at hd hmr ⊢
        rw [if_neg hmr, if_pos rfl]
        rcases le_or_lt r b with h4 | h4
        · -- r ≤ b ≤ g: sector 2/3
          have hmn : min r (min g b) = r := by rw [min_eq_right h1, min_eq_left h4]
          rw [hmn] at hd ⊢
          have hdpos : 0 < g - r := lt_of_le_of_ne (by linarith) (fun hc => hd hc.symm)
          rw [mul_div_cancel_left₀ _ h60]
          have hk2 : (2 : ℚ) ≤ (b - r) / (g - r) + 2 := by
            have : (0 : ℚ) ≤ (b - r) / (g - r) := div_nonneg (by linarith) (by linarith)
            linarith
          have hfl : ⌊60 * ((b - r) / (g - r) + 2) / 360⌋ = 0 := by
            apply floor_div_360_eq_zero
            · linarith
            · have : (b - r) / (g - r) ≤ 1 := by
                rw [div_le_one hdpos]; linarith
              linarith
          rw [hfl]
          simp only [Int.cast_zero, mul_zero, sub_zero]
          rcases lt_or_eq_of_le h1 with h5 | h5
          · -- b < g: k < 3
            have hk3 : (b - r) / (g - r) + 2 < 3 := by
              have : (b - r) / (g - r) < 1 := (div_lt_one hdpos).mpr (by linarith)
              linarith
            rw [if_neg (by linarith), if_neg (by linarith), if_pos hk3]
            simp only [Prod.mk.injEq]
            refine ⟨by ring, by ring, ?_⟩
            field_simp
            ring
          · -- b = g: k = 3
            subst h5
            have hdv : (b - r) / (b - r) = 1 := div_self (ne_of_gt hdpos)
            rw [if_neg (by rw [hdv]; norm_num), if_neg (by rw [hdv]; norm_num),
              if_neg (by rw [hdv]; norm_num), if_pos (by rw [hdv]; norm_num)]
            simp only [Prod.mk.injEq]
            rw [hdv]
            refine ⟨by ring, by ring, by ring⟩
        · -- b < r < g: sector 1
          have hmn : min r (min g b) = b := by rw [min_eq_right h1, min_eq_right h4.le]
          rw [hmn] at hd ⊢
          have hdpos : 0 < g - b := lt_of_le_of_ne (by linarith) (fun hc => hd hc.symm)
          rw [mul_div_cancel_left₀ _ h60]
          have hk1 : (1 : ℚ) ≤ (b - r) / (g - b) + 2 := by
            have : (-1 : ℚ) ≤ (b - r) / (g - b) := by
              rw [le_div_iff₀ hdpos]; linarith
            linarith
          have hk2 : (b - r) / (g - b) + 2 < 2 := by
            have : (b - r) / (g - b) < 0 := div_neg_of_neg_of_pos (by linarith) hdpos
            linarith
          have hfl : ⌊60 * ((b - r) / (g - b) + 2) / 360⌋ = 0 := by
            apply floor_div_360_eq_zero
            · linarith
            · linarith
          rw [hfl]
          simp only [Int.cast_zero, mul_zero, sub_zero]
          rw [if_neg (by linarith), if_pos hk2]
          simp only [Prod.mk.injEq]
          refine ⟨?_, by ring, by ring⟩
          field_simp
          ring
      · -- g < b: mx = b, r < b
        have hmx : max r (max g b) = b := by rw [hmx0, max_eq_right h1.le]
        have hrb : r < b := by rw [max_eq_right h1.le] at hB; exact hB
        rw [hmx] at hd hmr ⊢
        have hbg : b ≠ g := ne_of_gt h1
        rw [if_neg hmr, if_neg hbg]
        rcases le_or_lt g r with h4 | h4
        · -- g ≤ r < b: sector 4
          have hmn : min r (min g b) = g := by rw [min_eq_left h1.le, min_eq_right h4]
          rw [hmn] at hd ⊢
          have hdpos : 0 < b - g := lt_of_le_of_ne (by linarith) (fun hc => hd hc.symm)
          rw [mul_div_cancel_left₀ _ h60]
          have hk4 : (4 : ℚ) ≤ (r - g) / (b - g) + 4 := by
            have : (0 : ℚ) ≤ (r - g) / (b - g) := div_nonneg (by linarith) (by linarith)
            linarith
          have hk5 : (r - g) / (b - g) + 4 < 5 := by
            have : (r - g) / (b - g) < 1 := (div_lt_one hdpos).mpr (by linarith)
            linarith
          have hfl : ⌊60 * ((r - g) / (b - g) + 4) / 360⌋ = 0 := by
            apply floor_div_360_eq_zero
            · linarith
            · linarith
          rw [hfl]
          simp only [Int.cast_zero, mul_zero, sub_zero]
          rw [if_neg (by linarith), if_neg (by linarith), if_neg (by linarith),
            if_neg (by linarith), if_pos hk5]
          simp only [Prod.mk.injEq]
          refine ⟨?_, by ring, by ring⟩
          field_simp
          ring
        · -- r < g < b: sector 3
          have hmn : min r (min g b) = r := by rw [min_eq_left h1.le, min_eq_left h4.le]
          rw [hmn] at hd ⊢
          have hdpos : 0 < b - r := lt_of_le_of_ne (by linarith) (fun hc => hd hc.symm)
          rw [mul_div_cancel_left₀ _ h60]
          have hk3 : (3 : ℚ) ≤ (r - g) / (b - r) + 4 := by
            have : (-1 : ℚ) ≤ (r - g) / (b - r) := by
              rw [le_div_iff₀ hdpos]; linarith
            linarith
          have hk4 : (r - g) / (b - r) + 4 < 4 := by
            have : (r - g) / (b - r) < 0 := div_neg_of_neg_of_pos (by linarith) hdpos
            linarith
          have hfl : ⌊60 * ((r - g) / (b - r) + 4) / 360⌋ = 0 := by
            apply floor_div_360_eq_zero
            · linarith
            · linarith
          rw [hfl]
          simp only [Int.cast_zero, mul_zero, sub_zero]
          rw [if_neg (by linarith), if_neg (by linarith), if_neg (by linarith), if_pos hk4]
          simp only [Prod.mk.injEq]
          refine ⟨by ring, ?_, by ring⟩
          field_simp
          ring

/-- Encoding an exact byte channel reproduces the byte. -/
theorem byteOfQ_byte (n : ℕ) (hn : n ≤ 255) : byteOfQ ((n : ℚ) / 255) = n := by
  unfold byteOfQ jsRound
  have h1 : (255 : ℚ) * ((n : ℚ) / 255) = (n : ℚ) := by field_simp
  rw [h1]
  have h2 : ⌊(n : ℚ) + 1 / 2⌋ = (n : ℤ) := by
    rw [Int.floor_eq_iff]
    constructor
    · push_cast; linarith
    · push_cast; linarith
  rw [h2]
  have h3 : max 0 (n : ℤ) = (n : ℤ) := max_eq_right (by exact_mod_cast Nat.zero_le n)
  rw [h3]
  have h4 : min 255 (n : ℤ) = (n : ℤ) := min_eq_right (by exact_mod_cast hn)
  rw [h4, Int.toNat_natCast]

/-- An encoded byte is at most 255. -/
theorem byteOfQ_le (x : ℚ) : byteOfQ x ≤ 255 := by
  unfold byteOfQ
  omega

/-- Formatted hex output always reparses to its three byte channels. -/
theorem parseHexChars_format (x y z : ℕ) (hx : x ≤ 255) (hy : y ≤ 255) (hz : z ≤ 255) :
    parseHexChars ('#' :: (hexByte x ++ hexByte y ++ hexByte z)) = some (x, y, z) := by
  unfold parseHexChars
  rw [if_pos (by simp), List.tail_cons]
  unfold hexByte
  simp only [List.cons_append, List.nil_append]
  simp only [parseSixHex]
  rw [hexDigitVal_hexChar _ (by omega), hexDigitVal_hexChar _ (by omega),
    hexDigitVal_hexChar _ (by omega), hexDigitVal_hexChar _ (by omega),
    hexDigitVal_hexChar _ (by omega), hexDigitVal_hexChar _ (by omega)]
  simp only [bind, Option.some_bind, Option.pure_def, Option.some.injEq, Prod.mk.injEq]
  omega

/-- Unfolding hexToOklch on a successfully parsed string. -/
theorem hexToOklch_eq_of_parse (s : String) (r g b : ℕ)
    (h : parseHexChars s.data = some (r, g, b)) :
    hexToOklch s = some
      { l := (culoriOklch r g b).1, c := (culoriOklch r g b).2.1,
        h := ((culoriOklch r g b).2.2).getD 0 } := by
  unfold hexToOklch
  rw [h]

/-- Encoding the decoded color of a byte triple reproduces the bytes exactly. -/
theorem oklchToHex_decoded (r g b : ℕ) (hr : r ≤ 255) (hg : g ≤ 255) (hb : b ≤ 255) :
    parseHexChars (oklchToHex
      { l := (culoriOklch r g b).1, c := (culoriOklch r g b).2.1,
        h := ((culoriOklch r g b).2.2).getD 0 }).data = some (r, g, b) := by
  unfold oklchToHex
  have hrt := lch_roundtrip ((r : ℚ) / 255) ((g : ℚ) / 255) ((b : ℚ) / 255)
  unfold culoriOklch
  show parseHexChars ('#' :: _) = _
  rw [show lchToRgbUnit (rgbUnitToLch ((r : ℚ) / 255) ((g : ℚ) / 255) ((b : ℚ) / 255)).1
      (rgbUnitToLch ((r : ℚ) / 255) ((g : ℚ) / 255) ((b : ℚ) / 255)).2.1
      ((rgbUnitToLch ((r : ℚ) / 255) ((g : ℚ) / 255) ((b : ℚ) / 255)).2.2.getD 0) =
      ((r : ℚ) / 255, (g : ℚ) / 255, (b : ℚ) / 255) from hrt]
  rw [show (((r : ℚ) / 255, (g : ℚ) / 255, (b : ℚ) / 255) : ℚ × ℚ × ℚ).1 = (r : ℚ) / 255 from rfl,
    show (((r : ℚ) / 255, (g : ℚ) / 255, (b : ℚ) / 255) : ℚ × ℚ × ℚ).2.1 = (g : ℚ) / 255 from rfl,
    show (((r : ℚ) / 255, (g : ℚ) / 255, (b : ℚ) / 255) : ℚ × ℚ × ℚ).2.2 = (b : ℚ) / 255 from rfl]
  rw [byteOfQ_byte r hr, byteOfQ_byte g hg, byteOfQ_byte b hb]
  exact parseHexChars_format r g b hr hg hb

/-- The gamut bound is nonnegative. -/
theorem getMaxChroma_nonneg (l : ℚ) (h : Option ℚ) : 0 ≤ getMaxChroma l h := by
  unfold getMaxChroma
  split_ifs <;> norm_num

/-- On a defined hue the gamut bound is at least 0.1; the undefined-hue
branch returning 0 is never taken for a defined hue. -/
theorem getMaxChroma_some_ge (l q : ℚ) : 1 / 10 ≤ getMaxChroma l (some q) := by
  unfold getMaxChroma
  rw [if_neg (by simp)]
  split_ifs <;> norm_num

/-- Clamping the lightness into [0.2, 0.9] never lowers the gamut bound. -/
theorem getMaxChroma_clamp_mono (l : ℚ) (h : Option ℚ) :
    getMaxChroma l h ≤ getMaxChroma (max (1 / 5) (min (9 / 10) l)) h := by
  cases h with
  | none => simp [getMaxChroma]
  | some q =>
    have hval : ∀ x : ℚ, getMaxChroma x (some q) =
        (if x < 1 / 5 ∨ 19 / 20 < x then 1 / 10
         else if x < 2 / 5 ∨ 4 / 5 < x then 1 / 4 else 3 / 10) := by
      intro x
      unfold getMaxChroma
      rw [if_neg (by simp)]
    rw [hval, hval]
    rcases lt_or_le l (1 / 5 : ℚ) with h1 | h1
    · rw [if_pos (Or.inl h1), min_eq_right (by linarith), max_eq_left (by linarith)]
      split_ifs <;> norm_num
    · rcases le_or_lt l (9 / 10 : ℚ) with h2 | h2
      · rw [min_eq_right h2, max_eq_right h1]
      · rw [min_eq_left h2.le, max_eq_right (by norm_num)]
        have hRHS : (if (9 : ℚ) / 10 < 1 / 5 ∨ (19 : ℚ) / 20 < 9 / 10 then (1 : ℚ) / 10
            else if (9 : ℚ) / 10 < 2 / 5 ∨ (4 : ℚ) / 5 < 9 / 10 then 1 / 4 else 3 / 10)
            = 1 / 4 := by norm_num
        rw [hRHS]
        rcases lt_or_le (19 / 20 : ℚ) l with h3 | h3
        · rw [if_pos (Or.inr h3)]
          norm_num
        · rw [if_neg (by push_neg; constructor <;> linarith),
            if_pos (Or.inr (by linarith))]

/-- A formatted hex string reparses to its three channel bytes. -/
theorem parseHexChars_oklchToHex (c : OKLCH) :
    parseHexChars (oklchToHex c).data =
      some (byteOfQ (lchToRgbUnit c.l c.c c.h).1,
            byteOfQ (lchToRgbUnit c.l c.c c.h).2.1,
            byteOfQ (lchToRgbUnit c.l c.c c.h).2.2) := by
  show parseHexChars ('#' :: _) = _
  exact parseHexChars_format _ _ _ (byteOfQ_le _) (byteOfQ_le _) (byteOfQ_le _)

/-- Every hex string emitted by the encoder decodes successfully. -/
theorem hexToOklch_oklchToHex_isSome (c : OKLCH) : (hexToOklch (oklchToHex c)).isSome := by
  rw [hexToOklch_isSome_iff, parseHexChars_oklchToHex]
  rfl

/-- The last element of a seed-headed list of encoder outputs decodes
successfully whenever the seed does. -/
theorem hexToOklch_getLastD (s : String) (hs : (hexToOklch s).isSome) :
    ∀ l : List OKLCH, (hexToOklch ((l.map oklchToHex).getLastD s)).isSome := by
  intro l
  induction l generalizing s with
  | nil => exact hs
  | cons a t ih =>
    simp only [List.map_cons, List.getLastD_cons]
    exact ih (oklchToHex a) (hexToOklch_oklchToHex_isSome a)

/-- The fill loop succeeds and produces exactly fuel entries when the seed
and the current last color both decode. -/
theorem paletteFill_spec (startColor : String) (h0 : (hexToOklch startColor).isSome) :
    ∀ (fuel : ℕ) (lastHex : String), (hexToOklch lastHex).isSome →
      ∃ l, paletteFill startColor fuel lastHex = some l ∧ l.length = fuel := by
  intro fuel
  induction fuel with
  | zero => exact fun lastHex _ => ⟨[], rfl, rfl⟩
  | succ n ih =>
    intro lastHex hlast
    obtain ⟨lastC, hlc⟩ := Option.isSome_iff_exists.mp hlast
    obtain ⟨c0, hc0⟩ := Option.isSome_iff_exists.mp h0
    obtain ⟨rest, hrest, hlen⟩ :=
      ih (oklchToHex (fillColorOf lastC)) (hexToOklch_oklchToHex_isSome _)
    refine ⟨oklchToHex (fillColorOf lastC) :: rest, ?_, by simp [hlen]⟩
    unfold paletteFill
    rw [hlc, hc0]
    simp only
    rw [hrest]

/-- Mapping an option-valued function that succeeds on every element of a
list collects exactly the mapped values. -/
theorem mapM_eq_map {α β : Type} (f : α → Option β) (g : α → β) :
    ∀ l : List α, (∀ x ∈ l, f x = some (g x)) → l.mapM f = some (l.map g) := by
  intro l
  induction l with
  | nil => exact fun _ => rfl
  | cons a t ih =>
    intro h
    rw [List.mapM_cons, h a (by simp), ih (fun x hx => h x (by simp [hx]))]
    rfl

/-- Structure of generatePalette for a decodable seed and a positive count:
it succeeds, has exactly count entries, and starts with the seed string
itself.  Shared backbone for the length and seed-preservation claims. -/

theorem generatePalette_spec (seed scheme : String) (count : ℤ) (c0 : OKLCH)
    (hseed : hexToOklch seed = some c0) (hcount : 1 ≤ count) :
    ∃ p, generatePalette seed scheme count = some p ∧
      (p.length : ℤ) = count ∧ p.head? = some seed := by
  unfold generatePalette
  rw [hseed]
  simp only
  by_cases hmono : scheme = "monochromatic"
  · rw [if_pos hmono]
    by_cases h1 : 1 < count
    · rw [if_pos h1]
      refine ⟨_, rfl, ?_, ?_⟩
      · unfold jsSlice
        rw [if_neg (by omega)]
        simp only [List.length_take, List.length_cons, List.length_map, List.length_range]
        omega
      · unfold jsSlice
        rw [if_neg (by omega)]
        have hpos : 0 < count.toNat := by omega
        cases hn : count.toNat with
        | zero => omega
        | succ m => simp [List.take_succ_cons]
    · rw [if_neg h1]
      have hc1 : count = 1 := by omega
      subst hc1
      refine ⟨_, rfl, ?_, ?_⟩
      · unfold jsSlice
        rw [if_neg (by omega)]
        simp
      · unfold jsSlice
        rw [if_neg (by omega)]
        simp
  · rw [if_neg hmono]
    set gen := (List.take (count - 1).toNat (schemeOffsets scheme count)).map
      (fun off => oklchToHex (offsetColor c0 off)) with hgen
    have hlast : (hexToOklch ((seed :: gen).getLastD "")).isSome := by
      rw [List.getLastD_cons]
      have : gen = ((List.take (count - 1).toNat (schemeOffsets scheme count)).map
          (offsetColor c0)).map oklchToHex := by
        rw [hgen, List.map_map]; rfl
      rw [this]
      exact hexToOklch_getLastD seed (by rw [hseed]; rfl) _
    obtain ⟨extra, hextra, hexlen⟩ := paletteFill_spec seed (by rw [hseed]; rfl)
      ((count - ((seed :: gen).length : ℤ)).toNat) ((seed :: gen).getLastD "") hlast
    rw [hextra]
    refine ⟨_, rfl, ?_, ?_⟩
    · unfold jsSlice
      rw [if_neg (by omega)]
      have hglen : gen.length ≤ (count - 1).toNat := by
        rw [hgen]
        simp [List.length_take]
      simp only [List.length_take, List.length_append, List.length_cons, hexlen]
      omega
    · unfold jsSlice
      rw [if_neg (by omega)]
      have hpos : 0 < count.toNat := by omega
      cases hn : count.toNat with
      | zero => omega
      | succ m => simp [List.take_succ_cons]

/-- The value of getMaxChroma on a defined hue, independent of the hue value. -/
theorem getMaxChroma_some_eq (x q : ℚ) : getMaxChroma x (some q) =
    (if x < 1 / 5 ∨ 19 / 20 < x then (1 : ℚ) / 10
     else if x < 2 / 5 ∨ 4 / 5 < x then 1 / 4 else 3 / 10) := by
  unfold getMaxChroma
  rw [if_neg (by simp)]

/-- The byte encoder is monotone. -/
theorem byteOfQ_mono : Monotone byteOfQ := by
  intro x y hxy
  unfold byteOfQ jsRound
  have h1 : ⌊255 * x + 1 / 2⌋ ≤ ⌊255 * y + 1 / 2⌋ := Int.floor_le_floor (by linarith)
  have h2 : min 255 (max 0 ⌊255 * x + 1 / 2⌋) ≤ min 255 (max 0 ⌊255 * y + 1 / 2⌋) :=
    min_le_min le_rfl (max_le_max le_rfl h1)
  exact Int.toNat_le_toNat h2

/-- The rational value of an encoded byte. -/
theorem byteOfQ_cast (x : ℚ) :
    (byteOfQ x : ℚ) = ((min 255 (max 0 (jsRound (255 * x))) : ℤ) : ℚ) := by
  unfold byteOfQ
  have h0 : (0 : ℤ) ≤ min 255 (max 0 (jsRound (255 * x))) :=
    le_min (by norm_num) (le_max_left _ _)
  exact_mod_cast congrArg (fun z : ℤ => (z : ℚ)) (Int.toNat_of_nonneg h0)

/-- Upper bound for an encoded byte: at most half a step above the scaled
channel, and never negative. -/
theorem byteOfQ_le_of (x : ℚ) : (byteOfQ x : ℚ) ≤ max 0 (255 * x + 1 / 2) := by
  rw [byteOfQ_cast]
  unfold jsRound
  have h1 : ((min 255 (max 0 ⌊255 * x + 1 / 2⌋) : ℤ) : ℚ)
      ≤ ((max 0 ⌊255 * x + 1 / 2⌋ : ℤ) : ℚ) := by
    exact_mod_cast min_le_right _ _
  refine h1.trans ?_
  rw [Int.cast_max]
  push_cast
  exact max_le_max le_rfl (Int.floor_le _)

/-- Strict lower bound for an encoded byte when the channel does not clamp
at the top. -/
theorem byteOfQ_gt (x : ℚ) (hx : x ≤ 1) : 255 * x - 1 / 2 < (byteOfQ x : ℚ) := by
  rw [byteOfQ_cast]
  unfold jsRound
  have hr : ⌊255 * x + 1 / 2⌋ ≤ 255 := by
    have h2 : ⌊255 * x + 1 / 2⌋ < 256 := by
      rw [Int.floor_lt]
      push_cast
      linarith
    omega
  have hmin : min 255 (max 0 ⌊255 * x + 1 / 2⌋) = max 0 ⌊255 * x + 1 / 2⌋ :=
    min_eq_right (max_le (by norm_num) hr)
  rw [hmin, Int.cast_max]
  have h3 : 255 * x - 1 / 2 < ((⌊255 * x + 1 / 2⌋ : ℤ) : ℚ) := by
    have h4 := Int.sub_one_lt_floor (255 * x + 1 / 2)
    linarith
  refine h3.trans_le ?_
  push_cast
  exact le_max_right _ _

/-- A channel above 1 clamps to byte 255. -/
theorem byteOfQ_eq_255 (x : ℚ) (hx : 1 < x) : byteOfQ x = 255 := by
  unfold byteOfQ jsRound
  have h1 : (255 : ℤ) ≤ ⌊255 * x + 1 / 2⌋ := by
    rw [Int.le_floor]
    push_cast
    linarith
  have h2 : min 255 (max 0 ⌊255 * x + 1 / 2⌋) = 255 :=
    min_eq_left (h1.trans (le_max_right _ _))
  rw [h2]
  rfl

/-- A channel at most 0 clamps to byte 0. -/
theorem byteOfQ_eq_zero (x : ℚ) (hx : x ≤ 0) : byteOfQ x = 0 := by
  unfold byteOfQ jsRound
  have h1 : ⌊255 * x + 1 / 2⌋ ≤ 0 := by
    have h2 : ⌊255 * x + 1 / 2⌋ < 1 := by
      rw [Int.floor_lt]
      push_cast
      linarith
    omega
  have h2 : max 0 ⌊255 * x + 1 / 2⌋ = 0 := max_eq_left h1
  rw [h2]
  rfl

/-- The three channels of the inverse conversion have minimum L - d/2 and
maximum L + d/2; the hue sector only decides which position carries which. -/
theorem lchToRgbUnit_min_max (L C H : ℚ) (hC : 0 ≤ C) :
    min (lchToRgbUnit L C H).1 (min (lchToRgbUnit L C H).2.1 (lchToRgbUnit L C H).2.2)
      = L - 5 / 4 * C ∧
    max (lchToRgbUnit L C H).1 (max (lchToRgbUnit L C H).2.1 (lchToRgbUnit L C H).2.2)
      = L + 5 / 4 * C := by
  have hd : (0 : ℚ) ≤ 5 / 2 * C := by linarith
  have hk0 : 0 ≤ H / 60 - 6 * ((⌊H / 360⌋ : ℤ) : ℚ) := by
    have h1 : ((⌊H / 360⌋ : ℤ) : ℚ) ≤ H / 360 := Int.floor_le _
    linarith
  have hk6 : H / 60 - 6 * ((⌊H / 360⌋ : ℤ) : ℚ) < 6 := by
    have h1 : H / 360 < ((⌊H / 360⌋ : ℤ) : ℚ) + 1 := Int.lt_floor_add_one _
    linarith
  simp only [lchToRgbUnit]
  set k := H / 60 - 6 * ((⌊H / 360⌋ : ℤ) : ℚ) with hkdef
  split_ifs with h1 h2 h3 h4 h5
  · have q1 : 0 ≤ 5 / 2 * C * k := mul_nonneg hd hk0
    have q2 : 5 / 2 * C * k ≤ 5 / 2 * C * 1 := mul_le_mul_of_nonneg_left h1.le hd
    constructor
    · refine le_antisymm (((min_le_right _ _).trans (min_le_right _ _)).trans
        (le_of_eq (by ring))) ?_
      exact le_min (by linarith) (le_min (by linarith) (by linarith))
    · refine le_antisymm (max_le (by linarith) (max_le (by linarith) (by linarith))) ?_
      exact (le_of_eq (by ring : L + 5 / 4 * C = L - 5 / 2 * C / 2 + 5 / 2 * C)).trans
        (le_max_left _ _)
  · have q1 : 0 ≤ 5 / 2 * C * (2 - k) := mul_nonneg hd (by linarith)
    have q2 : 5 / 2 * C * (2 - k) ≤ 5 / 2 * C * 1 := mul_le_mul_of_nonneg_left (by linarith) hd
    constructor
    · refine le_antisymm (((min_le_right _ _).trans (min_le_right _ _)).trans
        (le_of_eq (by ring))) ?_
      exact le_min (by linarith) (le_min (by linarith) (by linarith))
    · refine le_antisymm (max_le (by linarith) (max_le (by linarith) (by linarith))) ?_
      refine (le_of_eq (by ring : L + 5 / 4 * C = L - 5 / 2 * C / 2 + 5 / 2 * C)).trans ?_
      exact (le_max_left _ _).trans (le_max_right _ _)
  · have q1 : 0 ≤ 5 / 2 * C * (k - 2) := mul_nonneg hd (by linarith)
    have q2 : 5 / 2 * C * (k - 2) ≤ 5 / 2 * C * 1 := mul_le_mul_of_nonneg_left (by linarith) hd
    constructor
    · refine le_antisymm ((min_le_left _ _).trans (le_of_eq (by ring))) ?_
      exact le_min (by linarith) (le_min (by linarith) (by linarith))
    · refine le_antisymm (max_le (by linarith) (max_le (by linarith) (by linarith))) ?_
      refine (le_of_eq (by ring : L + 5 / 4 * C = L - 5 / 2 * C / 2 + 5 / 2 * C)).trans ?_
      exact (le_max_left _ _).trans (le_max_right _ _)
  · have q1 : 0 ≤ 5 / 2 * C * (4 - k) := mul_nonneg hd (by linarith)
    have q2 : 5 / 2 * C * (4 - k) ≤ 5 / 2 * C * 1 := mul_le_mul_of_nonneg_left (by linarith) hd
    constructor
    · refine le_antisymm ((min_le_left _ _).trans (le_of_eq (by ring))) ?_
      exact le_min (by linarith) (le_min (by linarith) (by linarith))
    · refine le_antisymm (max_le (by linarith) (max_le (by linarith) (by linarith))) ?_
      refine (le_of_eq (by ring : L + 5 / 4 * C = L - 5 / 2 * C / 2 + 5 / 2 * C)).trans ?_
      exact (le_max_right _ _).trans (le_max_right _ _)
  · have q1 : 0 ≤ 5 / 2 * C * (k - 4) := mul_nonneg hd (by linarith)
    have q2 : 5 / 2 * C * (k - 4) ≤ 5 / 2 * C * 1 := mul_le_mul_of_nonneg_left (by linarith) hd
    constructor
    · refine le_antisymm (((min_le_right _ _).trans (min_le_left _ _)).trans
        (le_of_eq (by ring))) ?_
      exact le_min (by linarith) (le_min (by linarith) (by linarith))
    · refine le_antisymm (max_le (by linarith) (max_le (by linarith) (by linarith))) ?_
      refine (le_of_eq (by ring : L + 5 / 4 * C = L - 5 / 2 * C / 2 + 5 / 2 * C)).trans ?_
      exact (le_max_right _ _).trans (le_max_right _ _)
  · have h6 : 5 ≤ k := by push_neg at h5; exact h5
    have q1 : 0 ≤ 5 / 2 * C * (6 - k) := mul_nonneg hd (by linarith)
    have q2 : 5 / 2 * C * (6 - k) ≤ 5 / 2 * C * 1 := mul_le_mul_of_nonneg_left (by linarith) hd
    constructor
    · refine le_antisymm (((min_le_right _ _).trans (min_le_left _ _)).trans
        (le_of_eq (by ring))) ?_
      exact le_min (by linarith) (le_min (by linarith) (by linarith))
    · refine le_antisymm (max_le (by linarith) (max_le (by linarith) (by linarith))) ?_
      exact (le_of_eq (by ring : L + 5 / 4 * C = L - 5 / 2 * C / 2 + 5 / 2 * C)).trans
        (le_max_left _ _)

/-- Casting commutes with max of divisions by 255. -/
theorem cast_max_div (a b : ℕ) :
    max ((a : ℚ) / 255) ((b : ℚ) / 255) = ((max a b : ℕ) : ℚ) / 255 := by
  rcases le_total a b with h | h
  · rw [max_eq_right h,
      max_eq_right ((div_le_div_iff_of_pos_right (by norm_num : (0 : ℚ) < 255)).mpr (by exact_mod_cast h))]
  · rw [max_eq_left h,
      max_eq_left ((div_le_div_iff_of_pos_right (by norm_num : (0 : ℚ) < 255)).mpr (by exact_mod_cast h))]

/-- Casting commutes with min of divisions by 255. -/
theorem cast_min_div (a b : ℕ) :
    min ((a : ℚ) / 255) ((b : ℚ) / 255) = ((min a b : ℕ) : ℚ) / 255 := by
  rcases le_total a b with h | h
  · rw [min_eq_left h,
      min_eq_left ((div_le_div_iff_of_pos_right (by norm_num : (0 : ℚ) < 255)).mpr (by exact_mod_cast h))]
  · rw [min_eq_right h,
      min_eq_right ((div_le_div_iff_of_pos_right (by norm_num : (0 : ℚ) < 255)).mpr (by exact_mod_cast h))]

/-- Lightness and chroma of a decoded byte triple only depend on the largest
and the smallest byte. -/
theorem culoriOklch_lc (a b c : ℕ) :
    (culoriOklch a b c).1 = (((max a (max b c) : ℕ) : ℚ) + ((min a (min b c) : ℕ) : ℚ)) / 510 ∧
    (culoriOklch a b c).2.1
      = 2 / 5 * ((((max a (max b c) : ℕ) : ℚ) - ((min a (min b c) : ℕ) : ℚ)) / 255) := by
  unfold culoriOklch rgbUnitToLch
  rw [cast_max_div b c, cast_max_div a (max b c), cast_min_div b c, cast_min_div a (min b c)]
  by_cases hd : ((max a (max b c) : ℕ) : ℚ) / 255 - ((min a (min b c) : ℕ) : ℚ) / 255 = 0
  · rw [if_pos hd]
    have hMm : ((max a (max b c) : ℕ) : ℚ) = ((min a (min b c) : ℕ) : ℚ) := by linarith
    constructor
    · show (((max a (max b c) : ℕ) : ℚ) / 255 + ((min a (min b c) : ℕ) : ℚ) / 255) / 2 = _
      ring
    · show (0 : ℚ) = _
      rw [hMm]
      ring
  · rw [if_neg hd]
    constructor
    · show (((max a (max b c) : ℕ) : ℚ) / 255 + ((min a (min b c) : ℕ) : ℚ) / 255) / 2 = _
      ring
    · show 2 / 5 * (((max a (max b c) : ℕ) : ℚ) / 255 - ((min a (min b c) : ℕ) : ℚ) / 255) = _
      ring

/-- Decoded colors never have negative chroma. -/
theorem decoded_c_nonneg (s : String) (c : OKLCH) (h : hexToOklch s = some c) : 0 ≤ c.c := by
  cases hp : parseHexChars s.data with
  | none =>
    exfalso
    have hiff := hexToOklch_isSome_iff s
    rw [h, hp] at hiff
    simpa using hiff.mp rfl
  | some v =>
    obtain ⟨r, g, b⟩ := v
    have h2 := hexToOklch_eq_of_parse s r g b hp
    rw [h] at h2
    have h3 := Option.some.inj h2
    rw [h3]
    show 0 ≤ (culoriOklch r g b).2.1
    obtain ⟨-, hc⟩ := culoriOklch_lc r g b
    rw [hc]
    have hle : ((min r (min g b) : ℕ) : ℚ) ≤ ((max r (max g b) : ℕ) : ℚ) := by
      exact_mod_cast le_trans (min_le_left _ _) (le_max_left _ _)
    have h4 : (0 : ℚ) ≤ (((max r (max g b) : ℕ) : ℚ) - ((min r (min g b) : ℕ) : ℚ)) / 255 :=
      div_nonneg (by linarith) (by norm_num)
    linarith [mul_nonneg (by norm_num : (0 : ℚ) ≤ 2 / 5) h4]

/-- Core arithmetic of the decoded-back gamut bound: given the quantization
bounds on the smallest and largest channel bytes of an encoded in-gamut
color, the decoded chroma respects the gamut bound at the decoded lightness
up to one 8-bit chroma step 2/1275. -/
theorem byte_containment (l c q q' : ℚ) (N1 N3 : ℕ)
    (hc0 : 0 ≤ c) (hg : c ≤ getMaxChroma l (some q))
    (hmono : N1 ≤ N3) (h255 : N3 ≤ 255)
    (hub1 : (N1 : ℚ) ≤ max 0 (255 * (l - 5 / 4 * c) + 1 / 2))
    (hub3 : (N3 : ℚ) ≤ max 0 (255 * (l + 5 / 4 * c) + 1 / 2))
    (hlb1 : l - 5 / 4 * c ≤ 1 → 255 * (l - 5 / 4 * c) - 1 / 2 < (N1 : ℚ))
    (hlb3 : l + 5 / 4 * c ≤ 1 → 255 * (l + 5 / 4 * c) - 1 / 2 < (N3 : ℚ))
    (htop1 : 1 < l - 5 / 4 * c → N1 = 255)
    (htop3 : 1 < l + 5 / 4 * c → N3 = 255)
    (hbot3 : l + 5 / 4 * c ≤ 0 → N3 = 0) :
    2 / 5 * (((N3 : ℚ) - (N1 : ℚ)) / 255)
      ≤ getMaxChroma (((N3 : ℚ) + (N1 : ℚ)) / 510) (some q') + 2 / 1275 := by
  have hx13 : l - 5 / 4 * c ≤ l + 5 / 4 * c := by linarith
  have hC : 2 / 5 * (((N3 : ℚ) - (N1 : ℚ)) / 255) ≤ c + 2 / 1275 := by
    rcases le_or_lt (l + 5 / 4 * c) 0 with h3a | h3a
    · have hN3 : N3 = 0 := hbot3 h3a
      have hN1 : N1 = 0 := by omega
      rw [hN1, hN3]
      push_cast
      linarith
    · rcases le_or_lt (l - 5 / 4 * c) 1 with h1a | h1a
      · have hlb := hlb1 h1a
        have hub : (N3 : ℚ) ≤ 255 * (l + 5 / 4 * c) + 1 / 2 := by
          rcases le_or_lt (l + 5 / 4 * c) 1 with h3b | h3b
          · exact hub3.trans (le_of_eq (max_eq_right (by linarith)))
          · rw [htop3 h3b]
            push_cast
            linarith
        linarith
      · have hN1 : N1 = 255 := htop1 h1a
        have hN3 : N3 = 255 := by omega
        rw [hN1, hN3]
        push_cast
        linarith
  rcases le_or_lt c (1 / 10) with hc1 | hc1
  · have hgm := getMaxChroma_some_ge (((N3 : ℚ) + (N1 : ℚ)) / 510) q'
    linarith
  · rw [getMaxChroma_some_eq] at hg
    split_ifs at hg with hA hB
    · exact absurd hg (by push_neg; linarith)
    · -- tier 1/4: 1/5 ≤ l ≤ 19/20 and c ≤ 1/4
      push_neg at hA
      obtain ⟨hl1, hl2⟩ := hA
      have hS : 102 ≤ N3 + N1 := by
        rcases le_or_lt (l + 5 / 4 * c) 1 with h3a | h3a
        · rcases le_or_lt (l - 5 / 4 * c) 0 with h1a | h1a
          · have hb := hlb3 h3a
            have ha1 : (101 : ℚ) < (N3 : ℚ) := by linarith
            have ha2 : 101 < N3 := by exact_mod_cast ha1
            omega
          · have ha := hlb1 (le_trans hx13 h3a)
            have hb := hlb3 h3a
            have ha1 : (101 : ℚ) < (N3 : ℚ) + (N1 : ℚ) := by linarith
            have ha2 : (101 : ℚ) < ((N3 + N1 : ℕ) : ℚ) := by push_cast; linarith
            have ha3 : 101 < N3 + N1 := by exact_mod_cast ha2
            omega
        · have := htop3 h3a
          omega
      rcases le_or_lt (N3 + N1) 484 with h484 | h484
      · have e1 : (102 : ℚ) ≤ (N3 : ℚ) + (N1 : ℚ) := by
          have := hS
          push_cast at this ⊢
          exact_mod_cast this
        have e2 : (N3 : ℚ) + (N1 : ℚ) ≤ 484 := by
          have h' : ((N3 + N1 : ℕ) : ℚ) ≤ 484 := by exact_mod_cast h484
          push_cast at h'
          linarith
        have hgmL : 1 / 4 ≤ getMaxChroma (((N3 : ℚ) + (N1 : ℚ)) / 510) (some q') := by
          rw [getMaxChroma_some_eq]
          rw [if_neg (by push_neg; exact ⟨by linarith, by linarith⟩)]
          split_ifs
          · norm_num
          · norm_num
        linarith
      · exfalso
        have hN1' : 230 ≤ N1 := by omega
        have ha1 : (230 : ℚ) ≤ (N1 : ℚ) := by exact_mod_cast hN1'
        have ha2 : (230 : ℚ) ≤ 255 * (l - 5 / 4 * c) + 1 / 2 :=
          (le_max_iff.mp (ha1.trans hub1)).resolve_left (by norm_num)
        linarith
    · -- tier 3/10: 2/5 ≤ l ≤ 4/5 and c ≤ 3/10
      push_neg at hA hB
      obtain ⟨hl1, hl2⟩ := hA
      obtain ⟨hl3, hl4⟩ := hB
      have hS : 204 ≤ N3 + N1 := by
        rcases le_or_lt (l + 5 / 4 * c) 1 with h3a | h3a
        · have ha := hlb1 (le_trans hx13 h3a)
          have hb := hlb3 h3a
          have ha1 : (203 : ℚ) < (N3 : ℚ) + (N1 : ℚ) := by linarith
          have ha2 : (203 : ℚ) < ((N3 + N1 : ℕ) : ℚ) := by push_cast; linarith
          have ha3 : 203 < N3 + N1 := by exact_mod_cast ha2
          omega
        · have := htop3 h3a
          omega
      rcases le_or_lt (N3 + N1) 408 with h408 | h408
      · have e1 : (204 : ℚ) ≤ (N3 : ℚ) + (N1 : ℚ) := by
          have h' : (204 : ℚ) ≤ ((N3 + N1 : ℕ) : ℚ) := by exact_mod_cast hS
          push_cast at h'
          linarith
        have e2 : (N3 : ℚ) + (N1 : ℚ) ≤ 408 := by
          have h' : ((N3 + N1 : ℕ) : ℚ) ≤ 408 := by exact_mod_cast h408
          push_cast at h'
          linarith
        have hgmL : getMaxChroma (((N3 : ℚ) + (N1 : ℚ)) / 510) (some q') = 3 / 10 := by
          rw [getMaxChroma_some_eq]
          rw [if_neg (by push_neg; exact ⟨by linarith, by linarith⟩),
            if_neg (by push_neg; exact ⟨by linarith, by linarith⟩)]
        rw [hgmL]
        linarith
      · have hN1' : 154 ≤ N1 := by omega
        have ha1 : (154 : ℚ) ≤ (N1 : ℚ) := by exact_mod_cast hN1'
        have ha2 : (154 : ℚ) ≤ 255 * (l - 5 / 4 * c) + 1 / 2 :=
          (le_max_iff.mp (ha1.trans hub1)).resolve_left (by norm_num)
        have h484 : N3 + N1 ≤ 484 := by
          by_contra hcon
          push_neg at hcon
          have hN1'' : 230 ≤ N1 := by omega
          have hb1 : (230 : ℚ) ≤ (N1 : ℚ) := by exact_mod_cast hN1''
          have hb2 : (230 : ℚ) ≤ 255 * (l - 5 / 4 * c) + 1 / 2 :=
            (le_max_iff.mp (hb1.trans hub1)).resolve_left (by norm_num)
          linarith
        have h409 : 409 ≤ N3 + N1 := by omega
        have e1 : (409 : ℚ) ≤ (N3 : ℚ) + (N1 : ℚ) := by
          have h' : (409 : ℚ) ≤ ((N3 + N1 : ℕ) : ℚ) := by exact_mod_cast h409
          push_cast at h'
          linarith
        have e2 : (N3 : ℚ) + (N1 : ℚ) ≤ 484 := by
          have h' : ((N3 + N1 : ℕ) : ℚ) ≤ 484 := by exact_mod_cast h484
          push_cast at h'
          linarith
        have hgmL : getMaxChroma (((N3 : ℚ) + (N1 : ℚ)) / 510) (some q') = 1 / 4 := by
          rw [getMaxChroma_some_eq]
          rw [if_neg (by push_neg; exact ⟨by linarith, by linarith⟩),
            if_pos (Or.inr (by linarith))]
        rw [hgmL]
        linarith

/-- Decoded-back gamut containment: encoding any color with nonnegative
chroma inside the gamut bound at its own lightness and hue, then decoding
the hex string, yields a color whose chroma exceeds the gamut bound at its
own decoded lightness and hue by at most 2/1275 (one 8-bit chroma step). -/
theorem roundtrip_containment (X : OKLCH) (hc0 : 0 ≤ X.c) (hg : InGamut X) :
    ∃ c', hexToOklch (oklchToHex X) = some c' ∧
      c'.c ≤ getMaxChroma c'.l (some c'.h) + 2 / 1275 := by
  have hparse := parseHexChars_oklchToHex X
  refine ⟨_, hexToOklch_eq_of_parse _ _ _ _ hparse, ?_⟩
  obtain ⟨hmin, hmax⟩ := lchToRgbUnit_min_max X.l X.c X.h hc0
  obtain ⟨hl', hc'⟩ := culoriOklch_lc (byteOfQ (lchToRgbUnit X.l X.c X.h).1)
    (byteOfQ (lchToRgbUnit X.l X.c X.h).2.1) (byteOfQ (lchToRgbUnit X.l X.c X.h).2.2)
  have hBmax : max (byteOfQ (lchToRgbUnit X.l X.c X.h).1)
      (max (byteOfQ (lchToRgbUnit X.l X.c X.h).2.1) (byteOfQ (lchToRgbUnit X.l X.c X.h).2.2))
      = byteOfQ (X.l + 5 / 4 * X.c) := by
    rw [← byteOfQ_mono.map_max, ← byteOfQ_mono.map_max, hmax]
  have hBmin : min (byteOfQ (lchToRgbUnit X.l X.c X.h).1)
      (min (byteOfQ (lchToRgbUnit X.l X.c X.h).2.1) (byteOfQ (lchToRgbUnit X.l X.c X.h).2.2))
      = byteOfQ (X.l - 5 / 4 * X.c) := by
    rw [← byteOfQ_mono.map_min, ← byteOfQ_mono.map_min, hmin]
  rw [hBmax, hBmin] at hl' hc'
  show (culoriOklch _ _ _).2.1 ≤
    getMaxChroma (culoriOklch _ _ _).1 (some (((culoriOklch _ _ _).2.2).getD 0)) + 2 / 1275
  rw [hl', hc']
  exact byte_containment X.l X.c X.h _ (byteOfQ (X.l - 5 / 4 * X.c))
    (byteOfQ (X.l + 5 / 4 * X.c)) hc0 hg
    (byteOfQ_mono (by linarith)) (byteOfQ_le _)
    (byteOfQ_le_of _) (byteOfQ_le_of _)
    (byteOfQ_gt _) (byteOfQ_gt _)
    (byteOfQ_eq_255 _) (byteOfQ_eq_255 _)
    (byteOfQ_eq_zero _)

/-- Hue-offset palette colors are chroma-clamped at construction. -/
theorem offsetColor_inGamut (base : OKLCH) (off : ℤ) : InGamut (offsetColor base off) :=
  min_le_left _ _

/-- Monochromatic palette colors are chroma-clamped at construction. -/
theorem monoColorAt_inGamut (base : OKLCH) (count : ℤ) (i : ℕ) :
    InGamut (monoColorAt base count i) :=
  max_le (getMaxChroma_nonneg _ _) (min_le_left _ _)

/-- Fill-loop colors are chroma-clamped at construction: the bound is taken
at the unclamped lightness, which the [0.2, 0.9] clamp never lowers. -/
theorem fillColorOf_inGamut (last : OKLCH) : InGamut (fillColorOf last) :=
  (min_le_left _ _).trans (getMaxChroma_clamp_mono _ _)

/-- Value-gradient colors are chroma-clamped at construction. -/
theorem valueColorAt_inGamut (base : OKLCH) (p : ℚ) : InGamut (valueColorAt base p) :=
  min_le_left _ _

/-- Saturation-gradient colors are chroma-clamped at construction. -/
theorem satColorAt_inGamut (base : OKLCH) (p : ℚ) : InGamut (satColorAt base p) :=
  min_le_left _ _

/-- Combined-gradient colors are chroma-clamped at construction. -/
theorem combinedColorAt_inGamut (base : OKLCH) (p : ℚ) : InGamut (combinedColorAt base p) :=
  min_le_left _ _

/-- Smooth-sampler colors are chroma-clamped at construction. -/
theorem smoothColorAt_inGamut (base : OKLCH) (p : ℚ) (t : GradientType) :
    InGamut (smoothColorAt base p t) := by
  cases t
  · exact min_le_left _ _
  · exact min_le_left _ _
  · exact min_le_left _ _

/-- Hue-offset colors keep nonnegative chroma. -/
theorem offsetColor_c_nonneg (base : OKLCH) (off : ℤ) (hb : 0 ≤ base.c) :
    0 ≤ (offsetColor base off).c :=
  le_min (getMaxChroma_nonneg _ _) hb

/-- Monochromatic colors keep nonnegative chroma. -/
theorem monoColorAt_c_nonneg (base : OKLCH) (count : ℤ) (i : ℕ) :
    0 ≤ (monoColorAt base count i).c :=
  le_max_left _ _

/-- Fill-loop colors keep nonnegative chroma. -/
theorem fillColorOf_c_nonneg (last : OKLCH) (hb : 0 ≤ last.c) :
    0 ≤ (fillColorOf last).c :=
  le_min (getMaxChroma_nonneg _ _) hb

/-- Value-gradient colors keep nonnegative chroma for progress in [0,1]. -/
theorem valueColorAt_c_nonneg (base : OKLCH) (p : ℚ) (hb : 0 ≤ base.c)
    (h0 : 0 ≤ p) (h1 : p ≤ 1) : 0 ≤ (valueColorAt base p).c := by
  refine le_min (getMaxChroma_nonneg _ _) (mul_nonneg hb ?_)
  have habs : |p - 1 / 2| ≤ 1 / 2 := abs_le.mpr ⟨by linarith, by linarith⟩
  linarith

/-- Saturation-gradient colors keep nonnegative chroma for nonnegative
progress. -/
theorem satColorAt_c_nonneg (base : OKLCH) (p : ℚ) (h0 : 0 ≤ p) :
    0 ≤ (satColorAt base p).c := by
  refine le_min (getMaxChroma_nonneg _ _) (add_nonneg (le_max_left _ _) (mul_nonneg h0 ?_))
  exact le_trans (by norm_num) (le_max_left _ _)

/-- Combined-gradient colors keep nonnegative chroma for nonnegative
progress. -/
theorem combinedColorAt_c_nonneg (base : OKLCH) (p : ℚ) (h0 : 0 ≤ p) :
    0 ≤ (combinedColorAt base p).c := by
  refine le_min (getMaxChroma_nonneg _ _) (add_nonneg (le_max_left _ _) (mul_nonneg h0 ?_))
  exact le_trans (by norm_num) (le_max_left _ _)

/-- Smooth-sampler colors keep nonnegative chroma for positions in [0,1]. -/
theorem smoothColorAt_c_nonneg (base : OKLCH) (p : ℚ) (t : GradientType) (hb : 0 ≤ base.c)
    (h0 : 0 ≤ p) (h1 : p ≤ 1) : 0 ≤ (smoothColorAt base p t).c := by
  cases t
  · exact valueColorAt_c_nonneg base p hb h0 h1
  · exact satColorAt_c_nonneg base p h0
  · refine le_min (getMaxChroma_nonneg _ _) (add_nonneg (le_max_left _ _) (mul_nonneg h0 ?_))
    exact le_trans (by norm_num) (le_max_left _ _)

/-- Inversion for mapM over Option: every element of a successful result is
the image of some element of the input list. -/
theorem mapM_mem {α β : Type} (f : α → Option β) :
    ∀ (l : List α) (ys : List β), l.mapM f = some ys → ∀ y ∈ ys, ∃ x ∈ l, f x = some y := by
  intro l
  induction l with
  | nil =>
    intro ys h y hy
    simp only [List.mapM_nil, Option.pure_def, Option.some.injEq] at h
    subst h
    exact absurd hy (by simp)
  | cons a t ih =>
    intro ys h y hy
    rw [List.mapM_cons] at h
    cases hfa : f a with
    | none => rw [hfa] at h; exact absurd h (by simp)
    | some b =>
      rw [hfa] at h
      cases hmt : t.mapM f with
      | none => rw [hmt] at h; exact absurd h (by simp)
      | some bs =>
        rw [hmt] at h
        simp only [Option.pure_def, Option.bind_eq_bind, Option.some_bind,
          Option.some.injEq] at h
        subst h
        rcases List.mem_cons.mp hy with hyb | hybs
        · exact ⟨a, by simp, by rw [hfa, hyb]⟩
        · obtain ⟨x, hx, hfx⟩ := ih bs hmt y hybs
          exact ⟨x, by simp [hx], hfx⟩

/-- Inversion of the gradient generator body: every emitted string is the
encoder applied to a color at a progress fraction in [0,1]. -/
theorem gradientMapM_mem (c0 : OKLCH) (steps : ℤ) (F : OKLCH → ℚ → OKLCH) (p : List String)
    (hp : (List.range steps.toNat).mapM (fun (i : ℕ) => do
        let progress ← jsDiv (i : ℚ) ((steps : ℚ) - 1)
        pure (oklchToHex (F c0 progress))) = some p) :
    ∀ t ∈ p, ∃ prog : ℚ, 0 ≤ prog ∧ prog ≤ 1 ∧ t = oklchToHex (F c0 prog) := by
  intro t ht
  obtain ⟨j, hj, hfj⟩ := mapM_mem _ _ _ hp t ht
  have hjlt : j < steps.toNat := List.mem_range.mp hj
  unfold jsDiv at hfj
  by_cases hz : ((steps : ℚ) - 1) = 0
  · rw [if_pos hz] at hfj
    exact absurd hfj (by simp)
  · rw [if_neg hz] at hfj
    simp only [Option.pure_def, Option.bind_eq_bind, Option.some_bind,
      Option.some.injEq] at hfj
    have hs2 : 2 ≤ steps := by
      rcases lt_or_le steps 2 with h | h
      · have h1 : steps = 1 := by omega
        rw [h1] at hz
        norm_num at hz
      · exact h
    have hq : (2 : ℚ) ≤ (steps : ℚ) := by exact_mod_cast hs2
    refine ⟨(j : ℚ) / ((steps : ℚ) - 1), ?_, ?_, hfj.symm⟩
    · exact div_nonneg (by positivity) (by linarith)
    · rw [div_le_one (by linarith)]
      have h4 : (j : ℤ) + 1 ≤ steps := by omega
      have h5 : ((j : ℚ)) + 1 ≤ (steps : ℚ) := by exact_mod_cast h4
      linarith

/-- Every string the fill loop appends is the encoding of the fill color of
a decoded color. -/
theorem paletteFill_mem (s : String) :
    ∀ (fuel : ℕ) (lastHex : String) (l : List String),
      paletteFill s fuel lastHex = some l →
      ∀ t ∈ l, ∃ lc : OKLCH, 0 ≤ lc.c ∧ t = oklchToHex (fillColorOf lc) := by
  intro fuel
  induction fuel with
  | zero =>
    intro lastHex l hl t ht
    simp only [paletteFill, Option.some.injEq] at hl
    subst hl
    exact absurd ht (by simp)
  | succ n ih =>
    intro lastHex l hl t ht
    unfold paletteFill at hl
    cases h1 : hexToOklch lastHex with
    | none => rw [h1] at hl; exact absurd hl (by simp)
    | some lastC =>
      cases h2 : hexToOklch s with
      | none => rw [h1, h2] at hl; exact absurd hl (by simp)
      | some c0 =>
        rw [h1, h2] at hl
        simp only [] at hl
        cases h3 : paletteFill s n (oklchToHex (fillColorOf lastC)) with
        | none => rw [h3] at hl; exact absurd hl (by simp)
        | some rest =>
          rw [h3] at hl
          simp only [Option.some.injEq] at hl
          subst hl
          rcases List.mem_cons.mp ht with h4 | h4
          · exact ⟨lastC, decoded_c_nonneg _ _ h1, h4⟩
          · exact ih _ _ h3 t h4

/-- The tail of an initial segment is contained in the tail of the list. -/
theorem take_tail_subset {α : Type} (l : List α) (n : ℕ) : (l.take n).tail ⊆ l.tail := by
  cases l with
  | nil => simp
  | cons a t =>
    cases n with
    | zero => simp
    | succ m =>
      rw [List.take_succ_cons, List.tail_cons, List.tail_cons]
      exact List.take_subset m t

/-- A slice of a list is an initial segment, so its tail is contained in the
tail of the original list. -/
theorem jsSlice_tail_subset (l : List String) (n : ℤ) :
    ∀ t ∈ (jsSlice l n).tail, t ∈ l.tail := by
  intro t ht
  unfold jsSlice at ht
  split_ifs at ht with h
  · exact take_tail_subset l _ ht
  · exact take_tail_subset l _ ht

/-- Every palette element after the seed is the encoding of a constructed
color with nonnegative chroma inside the gamut bound at its own lightness
and hue. -/
theorem generatePalette_tail_shape (seed scheme : String) (count : ℤ) (p : List String)
    (hp : generatePalette seed scheme count = some p) :
    ∀ t ∈ p.tail, ∃ X : OKLCH, 0 ≤ X.c ∧ InGamut X ∧ t = oklchToHex X := by
  unfold generatePalette at hp
  cases hseed : hexToOklch seed with
  | none => rw [hseed] at hp; exact absurd hp (by simp)
  | some c0 =>
    rw [hseed] at hp
    simp only [] at hp
    have hc0 : 0 ≤ c0.c := decoded_c_nonneg seed c0 hseed
    by_cases hmono : scheme = "monochromatic"
    · rw [if_pos hmono] at hp
      simp only [Option.some.injEq] at hp
      subst hp
      intro t ht
      have ht2 := jsSlice_tail_subset _ _ _ ht
      rw [List.tail_cons] at ht2
      by_cases h1 : 1 < count
      · rw [if_pos h1] at ht2
        obtain ⟨j, hj, hje⟩ := List.mem_map.mp ht2
        exact ⟨monoColorAt c0 count (j + 1), monoColorAt_c_nonneg _ _ _,
          monoColorAt_inGamut _ _ _, hje.symm⟩
      · rw [if_neg h1] at ht2
        exact absurd ht2 (by simp)
    · rw [if_neg hmono] at hp
      set gen := (List.take (count - 1).toNat (schemeOffsets scheme count)).map
        (fun off => oklchToHex (offsetColor c0 off)) with hgendef
      cases hfill : paletteFill seed (count - ((seed :: gen).length : ℤ)).toNat
          ((seed :: gen).getLastD "") with
      | none => rw [hfill] at hp; exact absurd hp (by simp)
      | some extra =>
        rw [hfill] at hp
        simp only [Option.some.injEq] at hp
        subst hp
        intro t ht
        have ht2 := jsSlice_tail_subset _ _ _ ht
        rw [List.cons_append, List.tail_cons] at ht2
        rcases List.mem_append.mp ht2 with hmem | hmem
        · rw [hgendef] at hmem
          obtain ⟨off, hoff, hoffe⟩ := List.mem_map.mp hmem
          exact ⟨offsetColor c0 off, offsetColor_c_nonneg _ _ hc0,
            offsetColor_inGamut _ _, hoffe.symm⟩
        · obtain ⟨lc, hlcc, hlce⟩ := paletteFill_mem seed _ _ _ hfill t hmem
          exact ⟨fillColorOf lc, fillColorOf_c_nonneg _ hlcc, fillColorOf_inGamut _, hlce⟩

attribute [local semireducible] Rat.add Rat.mul Rat.sub Rat.inv Rat.ofScientific

/-- Channel bounds for the full pattern parser. -/
theorem parseHexChars_lt (cs : List Char) (r g b : ℕ) (h : parseHexChars cs = some (r, g, b)) :
    r < 256 ∧ g < 256 ∧ b < 256 := by
  unfold parseHexChars at h
  split_ifs at h <;> exact parseSixHex_lt _ _ _ _ h

/-- C1: for every decodable seed hex string, every scheme tag (recognized or
not) and every integer count ≥ 1, generatePalette succeeds and returns a
sequence whose length equals count. -/
theorem claim1_palette_length (seed scheme : String) (count : ℤ) (c0 : OKLCH)
    (hseed : hexToOklch seed = some c0) (hcount : 1 ≤ count) :
    ∃ p, generatePalette seed scheme count = some p ∧ (p.length : ℤ) = count := by
  obtain ⟨p, h1, h2, _⟩ := generatePalette_spec seed scheme count c0 hseed hcount
  exact ⟨p, h1, h2⟩

/-- C1 witness at a concrete seed, scheme and count. -/
theorem claim1_palette_length_witness :
    ∃ p, generatePalette "#3b82f6" "triadic" 5 = some p ∧ (p.length : ℤ) = 5 :=
  claim1_palette_length "#3b82f6" "triadic" 5
    { l := 61 / 102, c := 22 / 75, h := 40620 / 187 } (by decide) (by decide)

/-- C2: for every decodable seed, every scheme tag and every count ≥ 1, the
first element of the palette is the seed string itself, unmodified. -/
theorem claim2_seed_preserved (seed scheme : String) (count : ℤ) (c0 : OKLCH)
    (hseed : hexToOklch seed = some c0) (hcount : 1 ≤ count) :
    ∃ p, generatePalette seed scheme count = some p ∧ p.head? = some seed := by
  obtain ⟨p, h1, _, h3⟩ := generatePalette_spec seed scheme count c0 hseed hcount
  exact ⟨p, h1, h3⟩

/-- C2 witness at a concrete seed, scheme and count. -/
theorem claim2_seed_preserved_witness :
    ∃ p, generatePalette "#808080" "complementary" 2 = some p ∧ p.head? = some "#808080" :=
  claim2_seed_preserved "#808080" "complementary" 2
    { l := 128 / 255, c := 0, h := 0 } (by decide) (by decide)

/-- C4: hexToOklch fails (the InvalidColorFormat throw, modelled as none)
exactly on strings that do not match the strict 6-hex-digit pattern with an
optional '#', and succeeds with a perceptual color on every string matching
the pattern. -/
theorem claim4_parse_iff (s : String) :
    (hexToOklch s = none ↔ ¬ HexPattern s.data) ∧
    (HexPattern s.data → ∃ c, hexToOklch s = some c) := by
  have h := (hexToOklch_isSome_iff s).trans (parseHexChars_isSome_iff s.data)
  constructor
  · constructor
    · intro hn hp
      rw [← h] at hp
      rw [hn] at hp
      exact absurd hp (by simp)
    · intro hp
      cases hc : hexToOklch s with
      | none => rfl
      | some c => exact absurd (h.mp (by rw [hc]; rfl)) hp
  · intro hp
    exact Option.isSome_iff_exists.mp (h.mpr hp)

/-- C4 witness: a concrete matching string decodes successfully. -/
theorem claim4_parse_iff_witness : ∃ c, hexToOklch "#3b82f6" = some c :=
  (claim4_parse_iff "#3b82f6").2
    (Or.inr ⟨['3', 'b', '8', '2', 'f', '6'], by decide, by decide, by decide⟩)

/-- C6: the hue-offset table is count-dependent for triadic ({120,240} at
count ≥ 3, {120} at count = 2, none otherwise) and tetradic ({90,180,270} at
count ≥ 4, {90,180} at count = 3, {90} at count = 2, none otherwise), and any
unrecognized scheme tag yields exactly the triadic offsets. -/
theorem claim6_scheme_offsets :
    (∀ count : ℤ, schemeOffsets "triadic" count =
      if 3 ≤ count then [120, 240] else if count = 2 then [120] else []) ∧
    (∀ count : ℤ, schemeOffsets "tetradic" count =
      if 4 ≤ count then [90, 180, 270] else if count = 3 then [90, 180]
      else if count = 2 then [90] else []) ∧
    (∀ (s : String) (count : ℤ),
      s ∉ (["dichromatic", "complementary", "split-complementary", "triadic",
            "tetradic", "analogous", "monochromatic"] : List String) →
      schemeOffsets s count = schemeOffsets "triadic" count) := by
  refine ⟨fun count => ?_, fun count => ?_, fun s count hs => ?_⟩
  · unfold schemeOffsets
    rw [if_neg (by decide), if_neg (by decide), if_neg (by decide), if_pos rfl]
  · unfold schemeOffsets
    rw [if_neg (by decide), if_neg (by decide), if_neg (by decide), if_neg (by decide),
      if_pos rfl]
  · simp only [List.mem_cons, List.not_mem_nil, or_false, not_or] at hs
    obtain ⟨h1, h2, h3, h4, h5, h6, h7⟩ := hs
    have ht : schemeOffsets "triadic" count =
        (if 3 ≤ count then [120, 240] else if count = 2 then [120] else []) := by
      unfold schemeOffsets
      rw [if_neg (by decide), if_neg (by decide), if_neg (by decide), if_pos rfl]
    rw [ht]
    unfold schemeOffsets
    rw [if_neg h1, if_neg h2, if_neg h3, if_neg h4, if_neg h5, if_neg h6, if_neg h7]

/-- C6 witness: an unrecognized tag produces the triadic offsets. -/
theorem claim6_scheme_offsets_witness :
    schemeOffsets "vaporwave" 2 = schemeOffsets "triadic" 2 :=
  claim6_scheme_offsets.2.2 "vaporwave" 2 (by decide)

/-- C8: at steps = 1 each stepped gradient generator reaches the division
0/(steps-1) with a zero denominator (modelled as none); none of them raises
an InvalidParameter error or defaults to steps = 2 as the spec requires. -/
theorem claim8_steps_one_divides_by_zero :
    generateValueGradient "#3b82f6" 1 = none ∧
    generateSaturationGradient "#3b82f6" 1 = none ∧
    generateCombinedGradient "#3b82f6" 1 = none := by
  refine ⟨by decide, by decide, by decide⟩

/-- C10: hexToOklch coalesces the culori result with ?? 0 so all components
of a decoded color are defined numbers, achromatic inputs decode with hue
exactly 0 (and chroma 0), and for any defined hue getMaxChroma returns at
least 0.1, so its undefined-hue branch is unreachable from decoded colors. -/
theorem claim10_components_defined :
    (∀ (s : String) (r g b : ℕ), parseHexChars s.data = some (r, g, b) →
      hexToOklch s = some { l := (culoriOklch r g b).1, c := (culoriOklch r g b).2.1,
                            h := ((culoriOklch r g b).2.2).getD 0 }) ∧
    (∀ (s : String) (r : ℕ), parseHexChars s.data = some (r, r, r) →
      ∃ l, hexToOklch s = some { l := l, c := 0, h := 0 }) ∧
    (∀ l q : ℚ, 1 / 10 ≤ getMaxChroma l (some q)) := by
  refine ⟨hexToOklch_eq_of_parse, ?_, getMaxChroma_some_ge⟩
  intro s r h
  have hc : culoriOklch r r r = ((r : ℚ) / 255, 0, none) := by
    unfold culoriOklch rgbUnitToLch
    rw [max_self, max_self, min_self, min_self, if_pos (sub_self _)]
    norm_num
  refine ⟨(r : ℚ) / 255, ?_⟩
  rw [hexToOklch_eq_of_parse s r r r h, hc]
  rfl

/-- C10 witness: the gray #808080 decodes with chroma 0 and hue 0. -/
theorem claim10_components_defined_witness :
    ∃ l, hexToOklch "#808080" = some { l := l, c := 0, h := 0 } :=
  claim10_components_defined.2.1 "#808080" 128 (by decide)

/-- C7 (amended): every color produced by the gradient generators (stepped
and smooth), and every palette element after the first, decodes back from
its hex string to a perceptual color whose chroma is at most getMaxChroma
at its own decoded lightness and hue plus the 8-bit quantization tolerance
2/1275 (= 0.4/255, one chroma step of the byte codec); the first palette
element is the seed string passed through verbatim and is exempt. -/
theorem claim7_gamut_amended :
    (∀ (seed scheme : String) (count : ℤ) (p : List String),
      generatePalette seed scheme count = some p →
      ∀ t ∈ p.tail, ∃ c', hexToOklch t = some c' ∧
        c'.c ≤ getMaxChroma c'.l (some c'.h) + 2 / 1275) ∧
    (∀ (color : String) (steps : ℤ) (p : List String),
      generateValueGradient color steps = some p →
      ∀ t ∈ p, ∃ c', hexToOklch t = some c' ∧
        c'.c ≤ getMaxChroma c'.l (some c'.h) + 2 / 1275) ∧
    (∀ (color : String) (steps : ℤ) (p : List String),
      generateSaturationGradient color steps = some p →
      ∀ t ∈ p, ∃ c', hexToOklch t = some c' ∧
        c'.c ≤ getMaxChroma c'.l (some c'.h) + 2 / 1275) ∧
    (∀ (color : String) (steps : ℤ) (p : List String),
      generateCombinedGradient color steps = some p →
      ∀ t ∈ p, ∃ c', hexToOklch t = some c' ∧
        c'.c ≤ getMaxChroma c'.l (some c'.h) + 2 / 1275) ∧
    (∀ (color : String) (pos : ℚ) (g : GradientType) (s : String),
      0 ≤ pos → pos ≤ 1 → getSmoothGradientColor color pos g = some s →
      ∃ c', hexToOklch s = some c' ∧
        c'.c ≤ getMaxChroma c'.l (some c'.h) + 2 / 1275) := by
  refine ⟨?_, ?_, ?_, ?_, ?_⟩
  · intro seed scheme count p hp t ht
    obtain ⟨X, hX1, hX2, rfl⟩ := generatePalette_tail_shape seed scheme count p hp t ht
    exact roundtrip_containment X hX1 hX2
  · intro color steps p hp t ht
    unfold generateValueGradient at hp
    cases hc : hexToOklch color with
    | none => rw [hc] at hp; exact absurd hp (by simp)
    | some c0 =>
      rw [hc] at hp
      obtain ⟨prog, h0, h1, rfl⟩ := gradientMapM_mem c0 steps valueColorAt p hp t ht
      exact roundtrip_containment _
        (valueColorAt_c_nonneg c0 prog (decoded_c_nonneg _ _ hc) h0 h1)
        (valueColorAt_inGamut _ _)
  · intro color steps p hp t ht
    unfold generateSaturationGradient at hp
    cases hc : hexToOklch color with
    | none => rw [hc] at hp; exact absurd hp (by simp)
    | some c0 =>
      rw [hc] at hp
      obtain ⟨prog, h0, h1, rfl⟩ := gradientMapM_mem c0 steps satColorAt p hp t ht
      exact roundtrip_containment _ (satColorAt_c_nonneg c0 prog h0) (satColorAt_inGamut _ _)
  · intro color steps p hp t ht
    unfold generateCombinedGradient at hp
    cases hc : hexToOklch color with
    | none => rw [hc] at hp; exact absurd hp (by simp)
    | some c0 =>
      rw [hc] at hp
      obtain ⟨prog, h0, h1, rfl⟩ := gradientMapM_mem c0 steps combinedColorAt p hp t ht
      exact roundtrip_containment _ (combinedColorAt_c_nonneg c0 prog h0)
        (combinedColorAt_inGamut _ _)
  · intro color pos g s h0 h1 hs
    unfold getSmoothGradientColor at hs
    cases hc : hexToOklch color with
    | none => rw [hc] at hs; exact absurd hs (by simp)
    | some c0 =>
      rw [hc] at hs
      simp only [Option.map_some', Option.some.injEq] at hs
      subst hs
      exact roundtrip_containment _
        (smoothColorAt_c_nonneg c0 pos g (decoded_c_nonneg _ _ hc) h0 h1)
        (smoothColorAt_inGamut _ _ _)

/-- C7 witness: a concrete non-seed palette element decodes back within the
gamut bound plus tolerance. -/
theorem claim7_gamut_amended_witness :
    ∃ c', hexToOklch "#f63b82" = some c' ∧
      c'.c ≤ getMaxChroma c'.l (some c'.h) + 2 / 1275 :=
  claim7_gamut_amended.1 "#3b82f6" "triadic" 2 ["#3b82f6", "#f63b82"] (by decide)
    "#f63b82" (by decide)

/-- C7 counterexample: #0000ff decodes to chroma 0.4 but the gamut bound at
its own lightness and hue is 0.3, and generatePalette returns this seed
verbatim as element 0, so the output is not gamut-contained. -/
theorem claim7_gamut_counterexample :
    generatePalette "#0000ff" "triadic" 1 = some ["#0000ff"] ∧
    hexToOklch "#0000ff" = some { l := 1 / 2, c := 2 / 5, h := 240 } ∧
    ¬ InGamut { l := 1 / 2, c := 2 / 5, h := 240 } := by
  refine ⟨by decide, by decide, by decide⟩

/-- C5 (amended): for the achromatic seed #808080, scheme complementary and
count 2, getMaxChroma at the decoded lightness and the offset hue returns
0.3 rather than 0 (the decoded hue is the number 0 after coalescing, so the
undefined-hue branch is not taken); element 1 is nevertheless exactly gray
because its chroma is clamped to min(maxChroma, seed chroma) = 0. -/
theorem claim5_achromatic_amended :
    generatePalette "#808080" "complementary" 2 = some ["#808080", "#808080"] ∧
    hexToOklch "#808080" = some { l := 128 / 255, c := 0, h := 0 } ∧
    (offsetColor { l := 128 / 255, c := 0, h := 0 } 180).c = 0 ∧
    getMaxChroma (128 / 255) (some (jsMod ((0 : ℚ) + 180 + 360) 360)) = 3 / 10 := by
  refine ⟨by decide, by decide, by decide, by decide⟩

/-- C5 counterexample: getMaxChroma at the decoded lightness of #808080 and
the complementary offset hue is not 0, contradicting the claim that it
returns 0 regardless of the hue offset. -/
theorem claim5_achromatic_counterexample :
    hexToOklch "#808080" = some { l := 128 / 255, c := 0, h := 0 } ∧
    getMaxChroma (128 / 255) (some (jsMod ((0 : ℚ) + 180 + 360) 360)) ≠ 0 := by
  refine ⟨by decide, by decide⟩

/-- C9: decoding a valid hex string to the perceptual model and re-encoding
reproduces every 8-bit RGB channel within ±1 (the modelled codec is exact,
so the distance is 0). -/
theorem claim9_roundtrip (s : String) (c : OKLCH) (h : hexToOklch s = some c) :
    ∃ r g b r2 g2 b2, parseHexChars s.data = some (r, g, b) ∧
      parseHexChars (oklchToHex c).data = some (r2, g2, b2) ∧
      Nat.dist r r2 ≤ 1 ∧ Nat.dist g g2 ≤ 1 ∧ Nat.dist b b2 ≤ 1 := by
  cases hp : parseHexChars s.data with
  | none =>
    exfalso
    have hiff := hexToOklch_isSome_iff s
    rw [h, hp] at hiff
    simpa using hiff.mp rfl
  | some v =>
    obtain ⟨r, g, b⟩ := v
    obtain ⟨hr, hg, hb⟩ := parseHexChars_lt _ _ _ _ hp
    have hc : c = { l := (culoriOklch r g b).1, c := (culoriOklch r g b).2.1,
                    h := ((culoriOklch r g b).2.2).getD 0 } := by
      have h2 := hexToOklch_eq_of_parse s r g b hp
      rw [h] at h2
      exact Option.some.inj h2
    subst hc
    refine ⟨r, g, b, r, g, b, rfl, ?_, by simp [Nat.dist_self], by simp [Nat.dist_self],
      by simp [Nat.dist_self]⟩
    exact oklchToHex_decoded r g b (by omega) (by omega) (by omega)

/-- C9 witness at the concrete string #808080. -/
theorem claim9_roundtrip_witness :
    ∃ r g b r2 g2 b2, parseHexChars ("#808080" : String).data = some (r, g, b) ∧
      parseHexChars (oklchToHex { l := 128 / 255, c := 0, h := 0 }).data = some (r2, g2, b2) ∧
      Nat.dist r r2 ≤ 1 ∧ Nat.dist g g2 ≤ 1 ∧ Nat.dist b b2 ≤ 1 :=
  claim9_roundtrip "#808080" { l := 128 / 255, c := 0, h := 0 } (by decide)

/-- C3 (amended): sampling the continuous gradient at position i/(N-1)
reproduces the i-th element of the stepped gradient exactly for the value and
saturation kinds; the both kind is excluded because the smooth sampler
computes its chroma range from the gamut bound at the sampled lightness
while the stepped combined gradient uses the bound at the base lightness. -/
theorem claim3_sampler_equiv (color : String) (c0 : OKLCH) (N : ℤ) (i : ℕ)
    (hc : hexToOklch color = some c0) (hN : 2 ≤ N) (hi : i < N.toNat) :
    (∃ l, generateValueGradient color N = some l ∧
      getSmoothGradientColor color ((i : ℚ) / ((N : ℚ) - 1)) GradientType.value = l[i]?) ∧
    (∃ l, generateSaturationGradient color N = some l ∧
      getSmoothGradientColor color ((i : ℚ) / ((N : ℚ) - 1)) GradientType.saturation = l[i]?) := by
  have hNz : ((N : ℚ) - 1) ≠ 0 := by
    have h2 : (2 : ℚ) ≤ (N : ℚ) := by exact_mod_cast hN
    linarith
  have hdiv : ∀ j : ℕ, jsDiv (j : ℚ) ((N : ℚ) - 1) = some ((j : ℚ) / ((N : ℚ) - 1)) := by
    intro j
    unfold jsDiv
    rw [if_neg hNz]
  constructor
  · refine ⟨(List.range N.toNat).map
      (fun j : ℕ => oklchToHex (valueColorAt c0 ((j : ℚ) / ((N : ℚ) - 1)))), ?_, ?_⟩
    · unfold generateValueGradient
      rw [hc]
      simp only
      refine mapM_eq_map
        (fun j : ℕ => (jsDiv (j : ℚ) ((N : ℚ) - 1)).bind
          (fun progress => some (oklchToHex (valueColorAt c0 progress))))
        (fun j : ℕ => oklchToHex (valueColorAt c0 ((j : ℚ) / ((N : ℚ) - 1))))
        (List.range N.toNat) ?_
      intro j _
      simp only [hdiv j]
      rfl
    · unfold getSmoothGradientColor
      rw [hc]
      rw [List.getElem?_map, List.getElem?_range hi]
      rfl
  · refine ⟨(List.range N.toNat).map
      (fun j : ℕ => oklchToHex (satColorAt c0 ((j : ℚ) / ((N : ℚ) - 1)))), ?_, ?_⟩
    · unfold generateSaturationGradient
      rw [hc]
      simp only
      refine mapM_eq_map
        (fun j : ℕ => (jsDiv (j : ℚ) ((N : ℚ) - 1)).bind
          (fun progress => some (oklchToHex (satColorAt c0 progress))))
        (fun j : ℕ => oklchToHex (satColorAt c0 ((j : ℚ) / ((N : ℚ) - 1))))
        (List.range N.toNat) ?_
      intro j _
      simp only [hdiv j]
      rfl
    · unfold getSmoothGradientColor
      rw [hc]
      rw [List.getElem?_map, List.getElem?_range hi]
      rfl

/-- C3 witness at a concrete color, N = 5, i = 2. -/
theorem claim3_sampler_equiv_witness :
    (∃ l, generateValueGradient "#cc6633" 5 = some l ∧
      getSmoothGradientColor "#cc6633" (((2 : ℕ) : ℚ) / (((5 : ℤ) : ℚ) - 1))
        GradientType.value = l[(2 : ℕ)]?) ∧
    (∃ l, generateSaturationGradient "#cc6633" 5 = some l ∧
      getSmoothGradientColor "#cc6633" (((2 : ℕ) : ℚ) / (((5 : ℤ) : ℚ) - 1))
        GradientType.saturation = l[(2 : ℕ)]?) :=
  claim3_sampler_equiv "#cc6633" { l := 1 / 2, c := 6 / 25, h := 20 } 5 2
    (by decide) (by decide) (by decide)

/-- C3 counterexample: for the both kind at i = 1, N = 5 on #cc6633, the
stepped combined gradient yields #83543c but the smooth sampler at 1/(5-1)
yields #7f5540, whose red channels differ by 4, beyond any rounding
tolerance of ±1. -/
theorem claim3_sampler_counterexample :
    generateCombinedGradient "#cc6633" 5 =
      some ["#4f3b30", "#83543c", "#b76d48", "#eb8654", "#ff9f60"] ∧
    getSmoothGradientColor "#cc6633" ((1 : ℚ) / ((5 : ℚ) - 1)) GradientType.both =
      some "#7f5540" ∧
    ¬ ChannelsWithin "#83543c" "#7f5540" 1 := by
  refine ⟨by decide, by decide, ?_⟩
  rintro ⟨r, g, b, r2, g2, b2, h1, h2, hd, _, _⟩
  have e1 : parseHexChars ("#83543c" : String).data = some (131, 84, 60) := by decide
  have e2 : parseHexChars ("#7f5540" : String).data = some (127, 85, 64) := by decide
  rw [e1] at h1
  rw [e2] at h2
  simp only [Option.some.injEq, Prod.mk.injEq] at h1 h2
  obtain ⟨hr, hg, hb⟩ := h1
  obtain ⟨hr2, hg2, hb2⟩ := h2
  subst hr hg hb hr2 hg2 hb2
  exact absurd hd (by decide)
